import Mathlib

/-!
# PacketCrypt.h: record layouts

A shallow embedding of `include/packetcrypt/PacketCrypt.h`.  The header holds
no functions: it declares the record types, the constants and the size macro
of the PacketCrypt wire format, and pins the record sizes with
`_Static_assert`.  A C type is embedded as what the compiler knows about it
(its `sizeof` and its alignment), a struct as the list of its members in
declaration order, laid out by the usual C rule: every member is placed at the
first offset that is a multiple of its alignment, and the struct is padded at
the end to a multiple of the largest member alignment.
-/

namespace PacketCrypt

/-! ## C types and struct layout -/

/-- The alignments a platform gives to the three scalar types of `<stdint.h>`
that the header uses.  Their sizes are fixed by their names (1, 4 and 8 bytes);
their alignments are the platform's choice. -/
structure Platform where
  alignof_uint8_t : Nat
  alignof_uint32_t : Nat
  alignof_uint64_t : Nat
  deriving DecidableEq, Repr

/-- A platform is admissible when every scalar alignment is a power of two not
larger than the size of the type. -/
def Platform.Admissible (p : Platform) : Prop :=
  ((∃ k, p.alignof_uint8_t = 2 ^ k) ∧ p.alignof_uint8_t ≤ 1) ∧
  ((∃ k, p.alignof_uint32_t = 2 ^ k) ∧ p.alignof_uint32_t ≤ 4) ∧
  ((∃ k, p.alignof_uint64_t = 2 ^ k) ∧ p.alignof_uint64_t ≤ 8)

/-- Natural alignment, as on the common 64-bit ABIs. -/
def Platform.natural : Platform := ⟨1, 4, 8⟩

/-- The i386 System V convention: 64-bit integers are aligned to 4 bytes. -/
def Platform.ia32 : Platform := ⟨1, 4, 4⟩

/-- A platform on which nothing is aligned. -/
def Platform.packed : Platform := ⟨1, 1, 1⟩

/-- A C object type, as far as layout is concerned. -/
structure CType where
  size : Nat
  align : Nat
  deriving DecidableEq, Repr

/-- The type `uint8_t`. -/
def uint8_t (p : Platform) : CType := ⟨1, p.alignof_uint8_t⟩

/-- The type `uint32_t`. -/
def uint32_t (p : Platform) : CType := ⟨4, p.alignof_uint32_t⟩

/-- The type `uint64_t`. -/
def uint64_t (p : Platform) : CType := ⟨8, p.alignof_uint64_t⟩

/-- The array type of a member `T name[n]`: `n` elements back to back, aligned
like one element. -/
def CType.array (t : CType) (n : Nat) : CType := ⟨t.size * n, t.align⟩

/-- The members of a struct, in declaration order. -/
abbrev Members := List (String × CType)

/-- The least multiple of `a` that is not below `off`. -/
def alignUp (off a : Nat) : Nat := (off + a - 1) / a * a

/-- Lay the members out one after the other from offset `off`: the result gives
each member's name, offset and size. -/
def place (off : Nat) : Members → List (String × Nat × Nat)
  | [] => []
  | (name, t) :: rest =>
    (name, alignUp off t.align, t.size) ::
      place (alignUp off t.align + t.size) rest

/-- The offset just past the last member when laying out from `off`. -/
def placeEnd (off : Nat) : Members → Nat
  | [] => off
  | (_, t) :: rest => placeEnd (alignUp off t.align + t.size) rest

/-- The alignment of a struct: the largest alignment among its members. -/
def membersAlign : Members → Nat
  | [] => 1
  | (_, t) :: rest => max t.align (membersAlign rest)

/-- The type `struct { members }`. -/
def CType.struct (ms : Members) : CType :=
  ⟨alignUp (placeEnd 0 ms) (membersAlign ms), membersAlign ms⟩

/-- The operator `sizeof(T)`. -/
def sizeof (t : CType) : Nat := t.size

/-- The operator `offsetof(struct { members }, name)`. -/
def offsetof (ms : Members) (name : String) : Option Nat :=
  ((place 0 ms).find? (fun m => m.1 == name)).map (fun m => m.2.1)

/-- The size of the member `name` of `struct { members }`. -/
def memberSize (ms : Members) (name : String) : Option Nat :=
  ((place 0 ms).find? (fun m => m.1 == name)).map (fun m => m.2.2)

/-- The sum of the sizes of the members: the size of the struct if nothing is
padded. -/
def membersSize : Members → Nat
  | [] => 0
  | (_, t) :: rest => t.size + membersSize rest

/-! ## The declarations of the header -/

/-- The constant `#define PacketCrypt_NUM_ANNS 4`. -/
def PacketCrypt_NUM_ANNS : Nat := 4

/-- The members of `PacketCrypt_BlockHeader_t`. -/
def PacketCrypt_BlockHeader_members (p : Platform) : Members :=
  [ ("version", uint32_t p),
    ("hashPrevBlock", (uint32_t p).array 8),
    ("hashMerkleRoot", (uint32_t p).array 8),
    ("timeSeconds", uint32_t p),
    ("workBits", uint32_t p),
    ("nonce", uint32_t p) ]

/-- The type `PacketCrypt_BlockHeader_t`. -/
def PacketCrypt_BlockHeader_t (p : Platform) : CType :=
  CType.struct (PacketCrypt_BlockHeader_members p)

/-- The members of `PacketCrypt_AnnounceHdr_t`. -/
def PacketCrypt_AnnounceHdr_members (p : Platform) : Members :=
  [ ("version", uint8_t p),
    ("softNonce", (uint8_t p).array 3),
    ("hardNonce", uint32_t p),
    ("workBits", uint32_t p),
    ("parentBlockHeight", uint32_t p),
    ("contentType", uint64_t p),
    ("contentHash", (uint8_t p).array 32),
    ("signingKey", (uint8_t p).array 32) ]

/-- The type `PacketCrypt_AnnounceHdr_t`. -/
def PacketCrypt_AnnounceHdr_t (p : Platform) : CType :=
  CType.struct (PacketCrypt_AnnounceHdr_members p)

/-- The members of `PacketCrypt_Announce_t`. -/
def PacketCrypt_Announce_members (p : Platform) : Members :=
  [ ("hdr", PacketCrypt_AnnounceHdr_t p),
    ("proof", (uint64_t p).array 117) ]

/-- The type `PacketCrypt_Announce_t`. -/
def PacketCrypt_Announce_t (p : Platform) : CType :=
  CType.struct (PacketCrypt_Announce_members p)

/-- The members of `PacketCrypt_HeaderAndProof_t`; `proof[8]` is the
placeholder of the flexible length buffer. -/
def PacketCrypt_HeaderAndProof_members (p : Platform) : Members :=
  [ ("blockHeader", PacketCrypt_BlockHeader_t p),
    ("nonce2", uint32_t p),
    ("proofLen", uint32_t p),
    ("announcements", (PacketCrypt_Announce_t p).array PacketCrypt_NUM_ANNS),
    ("proof", (uint8_t p).array 8) ]

/-- The type `PacketCrypt_HeaderAndProof_t`. -/
def PacketCrypt_HeaderAndProof_t (p : Platform) : CType :=
  CType.struct (PacketCrypt_HeaderAndProof_members p)

/-- The exact value of the expression of the macro
`#define PacketCrypt_HeaderAndProof_SIZEOF(proofLen)
( sizeof(PacketCrypt_HeaderAndProof_t) - 8 + (proofLen) )`, read over the
unbounded naturals (the subtraction is the truncated one of `Nat`).  The code
computes in `size_t`, see `PacketCrypt_HeaderAndProof_SIZEOF_size_t`: the two
agree as long as the sum fits `size_t` and differ once it wraps around. -/
def PacketCrypt_HeaderAndProof_SIZEOF (p : Platform) (proofLen : Nat) : Nat :=
  sizeof (PacketCrypt_HeaderAndProof_t p) - 8 + proofLen

/-- Subtraction of two values of an unsigned type of `bits` bits: the result
is reduced modulo `2 ^ bits`. -/
def usub (bits a b : Nat) : Nat := (a % 2 ^ bits + 2 ^ bits - b % 2 ^ bits) % 2 ^ bits

/-- Addition of two values of an unsigned type of `bits` bits: the result is
reduced modulo `2 ^ bits`. -/
def uadd (bits a b : Nat) : Nat := (a % 2 ^ bits + b % 2 ^ bits) % 2 ^ bits

/-- The macro `PacketCrypt_HeaderAndProof_SIZEOF(proofLen)` as the compiler
evaluates it when `size_t` has `bits` bits and `proofLen` is not wider than
`size_t`: `sizeof` yields a `size_t`, so `8` and `proofLen` are converted to
`size_t` and both operations, `sizeof(...) - 8` first and `+ (proofLen)` second,
are done modulo `2 ^ bits`. -/
def PacketCrypt_HeaderAndProof_SIZEOF_size_t (bits : Nat) (p : Platform)
    (proofLen : Nat) : Nat :=
  uadd bits (usub bits (sizeof (PacketCrypt_HeaderAndProof_t p)) 8) proofLen

/-- The constant `#define PacketCrypt_Coinbase_MAGIC 0x0211f909`. -/
def PacketCrypt_Coinbase_MAGIC : Nat := 0x0211f909

/-- The members of `PacketCrypt_Coinbase_t`. -/
def PacketCrypt_Coinbase_members (p : Platform) : Members :=
  [ ("magic", uint32_t p),
    ("annLeastWorkTarget", uint32_t p),
    ("merkleRoot", (uint8_t p).array 32),
    ("numAnns", uint64_t p) ]

/-- The type `PacketCrypt_Coinbase_t`. -/
def PacketCrypt_Coinbase_t (p : Platform) : CType :=
  CType.struct (PacketCrypt_Coinbase_members p)

/-- The members of `PacketCrypt_Find_t`. -/
def PacketCrypt_Find_members (p : Platform) : Members :=
  [ ("ptr", uint64_t p),
    ("size", uint64_t p) ]

/-- The type `PacketCrypt_Find_t`. -/
def PacketCrypt_Find_t (p : Platform) : CType :=
  CType.struct (PacketCrypt_Find_members p)

/-- The members of `PacketCrypt_ValidateCtx_t`. -/
def PacketCrypt_ValidateCtx_members (p : Platform) : Members :=
  [ ("progbuf", (uint32_t p).array 2048) ]

/-- The type `PacketCrypt_ValidateCtx_t`. -/
def PacketCrypt_ValidateCtx_t (p : Platform) : CType :=
  CType.struct (PacketCrypt_ValidateCtx_members p)

/-- The `_Static_assert`s of the header, in source order, each evaluated on the
platform `p`. -/
def staticAsserts (p : Platform) : List Bool :=
  [ sizeof (PacketCrypt_BlockHeader_t p) == 80,
    sizeof (PacketCrypt_AnnounceHdr_t p) == 88,
    sizeof (PacketCrypt_Announce_t p) == 1024,
    sizeof (PacketCrypt_HeaderAndProof_t p) ==
      sizeof (PacketCrypt_BlockHeader_t p) +
      4 +
      4 +
      sizeof (PacketCrypt_Announce_t p) * PacketCrypt_NUM_ANNS +
      8,
    sizeof (PacketCrypt_Coinbase_t p) == 32 + 8 + 4 + 4,
    sizeof (PacketCrypt_Find_t p) == 16,
    sizeof (PacketCrypt_ValidateCtx_t p) == 2048 * 4 ]

/-- The twelve admissible platforms. -/
def admissiblePlatforms : List Platform :=
  [ ⟨1, 1, 1⟩, ⟨1, 1, 2⟩, ⟨1, 1, 4⟩, ⟨1, 1, 8⟩,
    ⟨1, 2, 1⟩, ⟨1, 2, 2⟩, ⟨1, 2, 4⟩, ⟨1, 2, 8⟩,
    ⟨1, 4, 1⟩, ⟨1, 4, 2⟩, ⟨1, 4, 4⟩, ⟨1, 4, 8⟩ ]

/-! ## The layout diagrams of the header's comments -/

/-- A labelled byte range `[first, last)` of a diagram. -/
abbrev Region := String × Nat × Nat

/-- The byte ranges `[offset, offset + size)` of the members of a laid out
struct, in declaration order. -/
def extents (placed : List (String × Nat × Nat)) : List (Nat × Nat) :=
  placed.map (fun m => (m.2.1, m.2.1 + m.2.2))

/-- The byte ranges of the regions of a diagram. -/
def ranges (d : List Region) : List (Nat × Nat) := d.map (fun r => r.2)

/-- The ranges follow one another without gap or overlap from `first` and
end at `last`. -/
def tiles (first : Nat) : List (Nat × Nat) → Nat → Bool
  | [], last => first == last
  | (a, b) :: rest, last => a == first && decide (a ≤ b) && tiles b rest last

/-- The diagram in the comment above `PacketCrypt_BlockHeader_t`: one row is
four bytes, a row is labelled with the offset of its first byte. -/
def PacketCrypt_BlockHeader_diagram : List Region :=
  [ ("version", 0, 4),
    ("hashPrevBlock", 4, 36),
    ("hashMerkleRoot", 36, 68),
    ("timeSeconds", 68, 72),
    ("workBits", 72, 76),
    ("nonce", 76, 80) ]

/-- The diagram in the comment above `PacketCrypt_AnnounceHdr_t`; in row 0
`version` is the first 8 bits and `soft_nonce` the other 24. -/
def PacketCrypt_AnnounceHdr_diagram : List Region :=
  [ ("version", 0, 1),
    ("soft_nonce", 1, 4),
    ("hard_nonce", 4, 8),
    ("work_bits", 8, 12),
    ("parent_block_height", 12, 16),
    ("content_type", 16, 24),
    ("content_hash", 24, 56),
    ("signing_key", 56, 88) ]

/-- The comment
`[ Header 0:88 ][ AnnMerkle proof 88:1008 ][ Item 4 Prefix 1008:1024 ]`. -/
def PacketCrypt_Announce_diagram : List Region :=
  [ ("Header", 0, 88),
    ("AnnMerkle proof", 88, 1008),
    ("Item 4 Prefix", 1008, 1024) ]

/-- The offset of element `i` of the array member `name` whose elements have
type `elem`: `offsetof(struct { members }, name[i])`. -/
def offsetofElem (ms : Members) (name : String) (elem : CType) (i : Nat) :
    Option Nat :=
  (offsetof ms name).map (fun o => o + i * sizeof elem)

/-! ## The codecs of the records

The header declares the records only; the decoders below follow the
specification of the format (its sections 3, 4 and 7). -/

/-- One byte of a buffer. -/
abbrev Byte := Fin 256

/-- Modelled from the spec: the error kinds of section 7; the header has no
decoder, hence no error type. -/
inductive DecodeError where
  | SizeMismatch
  | Truncated
  | TrailingBytes
  | BadMagic
  | BufferTooSmall
  deriving DecidableEq, Repr

/-- Modelled from the spec: the primitive codec's read of `n` raw bytes at
offset `off` (section 4.1), which fails with `BufferTooSmall` when it would
read past the buffer; the header has no codec. -/
def readBytes (buf : List Byte) (off n : Nat) : Except DecodeError (List Byte) :=
  if off + n ≤ buf.length then .ok ((buf.drop off).take n)
  else .error .BufferTooSmall

/-- The value of a little-endian byte string. -/
def leValue : List Byte → Nat
  | [] => 0
  | b :: bs => b.val + 256 * leValue bs

/-- Modelled from the spec: the primitive codec's decode of a little-endian
unsigned integer of `width` bytes at offset `off` (sections 3 and 4.1); the
header has no codec. -/
def readUInt (buf : List Byte) (off width : Nat) : Except DecodeError Nat :=
  match readBytes buf off width with
  | .ok bs => .ok (leValue bs)
  | .error e => .error e

/-- Modelled from the spec: the decode of `count` consecutive little-endian
integers of `width` bytes from offset `off`; the header has no codec. -/
def readWords (buf : List Byte) (off width : Nat) :
    Nat → Except DecodeError (List Nat)
  | 0 => .ok []
  | count + 1 =>
    match readUInt buf off width with
    | .error e => .error e
    | .ok w =>
      match readWords buf (off + width) width count with
      | .error e => .error e
      | .ok ws => .ok (w :: ws)

/-- Modelled from the spec: the BlockHeader record of section 3 (the header
declares `PacketCrypt_BlockHeader_t` but no decoded form). -/
structure BlockHeader where
  version : Nat
  hashPrevBlock : List Nat
  hashMerkleRoot : List Nat
  timeSeconds : Nat
  workBits : Nat
  nonce : Nat
  deriving DecidableEq, Repr

/-- Modelled from the spec: the AnnounceHeader record of section 3. -/
structure AnnounceHeader where
  version : Nat
  softNonce : Nat
  hardNonce : Nat
  workBits : Nat
  parentBlockHeight : Nat
  contentType : Nat
  contentHash : List Byte
  signingKey : List Byte
  deriving DecidableEq, Repr

/-- Modelled from the spec: the Announcement record of section 3, a header and
a 936-byte proof region whose layout the record does not interpret. -/
structure Announcement where
  hdr : AnnounceHeader
  proof : List Byte
  deriving DecidableEq, Repr

/-- Modelled from the spec: the HeaderAndProof bundle of section 3. -/
structure HeaderAndProof where
  blockHeader : BlockHeader
  nonce2 : Nat
  proofLen : Nat
  announcements : List Announcement
  proof : List Byte
  deriving DecidableEq, Repr

/-- Modelled from the spec: the CoinbaseCommitment record of section 3. -/
structure CoinbaseCommitment where
  magic : Nat
  annLeastWorkTarget : Nat
  merkleRoot : List Byte
  numAnns : Nat
  deriving DecidableEq, Repr

/-- Modelled from the spec: `decode` of a BlockHeader (section 4.2), which is
absent from the header: the buffer must be exactly 80 bytes (`SizeMismatch`
otherwise), the fields are read little-endian in the order of section 3. -/
def decodeBlockHeader (buf : List Byte) : Except DecodeError BlockHeader :=
  if buf.length ≠ 80 then .error .SizeMismatch
  else do
    let version ← readUInt buf 0 4
    let hashPrevBlock ← readWords buf 4 4 8
    let hashMerkleRoot ← readWords buf 36 4 8
    let timeSeconds ← readUInt buf 68 4
    let workBits ← readUInt buf 72 4
    let nonce ← readUInt buf 76 4
    pure ⟨version, hashPrevBlock, hashMerkleRoot, timeSeconds, workBits, nonce⟩

/-- Modelled from the spec: `decode` of an AnnounceHeader (section 4.2), which
is absent from the header: the buffer must be exactly 88 bytes. -/
def decodeAnnounceHeader (buf : List Byte) : Except DecodeError AnnounceHeader :=
  if buf.length ≠ 88 then .error .SizeMismatch
  else do
    let version ← readUInt buf 0 1
    let softNonce ← readUInt buf 1 3
    let hardNonce ← readUInt buf 4 4
    let workBits ← readUInt buf 8 4
    let parentBlockHeight ← readUInt buf 12 4
    let contentType ← readUInt buf 16 8
    let contentHash ← readBytes buf 24 32
    let signingKey ← readBytes buf 56 32
    pure ⟨version, softNonce, hardNonce, workBits, parentBlockHeight,
      contentType, contentHash, signingKey⟩

/-- Modelled from the spec: `decode` of an Announcement (section 4.2), which is
absent from the header: the buffer must be exactly 1024 bytes, the header is
decoded from a slice of exactly 88 bytes, the other 936 bytes are the proof
region. -/
def decodeAnnouncement (buf : List Byte) : Except DecodeError Announcement :=
  if buf.length ≠ 1024 then .error .SizeMismatch
  else do
    let hdrBytes ← readBytes buf 0 88
    let hdr ← decodeAnnounceHeader hdrBytes
    let proof ← readBytes buf 88 936
    pure ⟨hdr, proof⟩

/-- Modelled from the spec: `decode` of a CoinbaseCommitment (section 4.2),
which is absent from the header: the buffer must be exactly 48 bytes, then the
magic is read and compared with `PacketCrypt_Coinbase_MAGIC` (`BadMagic` on a
mismatch) before any other field is read. -/
def decodeCoinbaseCommitment (buf : List Byte) :
    Except DecodeError CoinbaseCommitment :=
  if buf.length ≠ 48 then .error .SizeMismatch
  else do
    let magic ← readUInt buf 0 4
    if magic ≠ PacketCrypt_Coinbase_MAGIC then .error .BadMagic
    else do
      let annLeastWorkTarget ← readUInt buf 4 4
      let merkleRoot ← readBytes buf 8 32
      let numAnns ← readUInt buf 40 8
      pure ⟨magic, annLeastWorkTarget, merkleRoot, numAnns⟩

/-- Modelled from the spec: the decode of the embedded Announcements of a
bundle, `count` records of 1024 bytes from offset `off`, each decoded from a
slice of exactly its size. -/
def decodeAnnouncements (buf : List Byte) (off : Nat) :
    Nat → Except DecodeError (List Announcement)
  | 0 => .ok []
  | count + 1 =>
    match readBytes buf off 1024 with
    | .error e => .error e
    | .ok slice =>
      match decodeAnnouncement slice with
      | .error e => .error e
      | .ok a =>
        match decodeAnnouncements buf (off + 1024) count with
        | .error e => .error e
        | .ok as => .ok (a :: as)

/-- Modelled from the spec: `decode` of a HeaderAndProof bundle (section 4.3),
which is absent from the header: read the fixed 80+4+4-byte part, extract
`proofLen`, compute `expectedTotal = 80 + 4 + 4 + 4*1024 + proofLen`, require
the length of the buffer to be exactly that (`Truncated` when it is shorter,
`TrailingBytes` when it is longer), and only then decode the four
Announcements and the trailing proof buffer. -/
def decodeHeaderAndProof (buf : List Byte) : Except DecodeError HeaderAndProof := do
  let fixed ← readBytes buf 0 (80 + 4 + 4)
  let nonce2 ← readUInt fixed 80 4
  let proofLen ← readUInt fixed 84 4
  let expectedTotal := 80 + 4 + 4 + 4 * 1024 + proofLen
  if buf.length < expectedTotal then .error .Truncated
  else if buf.length > expectedTotal then .error .TrailingBytes
  else do
    let blockHeader ← decodeBlockHeader (fixed.take 80)
    let announcements ← decodeAnnouncements buf (80 + 4 + 4) 4
    let proof ← readBytes buf (80 + 4 + 4 + 4 * 1024) proofLen
    pure ⟨blockHeader, nonce2, proofLen, announcements, proof⟩

/-- Modelled from the spec: the primitive codec's encode of an unsigned integer
as a fixed-width little-endian field of `width` bytes (sections 3 and 4.1); the
header has no codec. -/
def putUInt : Nat → Nat → List Byte
  | 0, _ => []
  | width + 1, v => ⟨v % 256, Nat.mod_lt v (by decide)⟩ :: putUInt width (v / 256)

/-- Modelled from the spec: the encode of a field of `count` little-endian
integers of `width` bytes each, always `count` of them; the header has no
codec. -/
def putWords (width : Nat) : Nat → List Nat → List Byte
  | 0, _ => []
  | count + 1, ws => putUInt width (ws.headD 0) ++ putWords width count ws.tail

/-- Modelled from the spec: the encode of a field of `n` raw bytes, always `n`
of them; the header has no codec. -/
def putBytes (n : Nat) (bs : List Byte) : List Byte :=
  (bs ++ List.replicate n (0 : Byte)).take n

/-- Modelled from the spec: `encode` of a BlockHeader (section 4.2), which is
absent from the header: the fields in the order of section 3, little-endian,
with no padding. -/
def encodeBlockHeader (r : BlockHeader) : List Byte :=
  putUInt 4 r.version ++ (putWords 4 8 r.hashPrevBlock ++
    (putWords 4 8 r.hashMerkleRoot ++ (putUInt 4 r.timeSeconds ++
      (putUInt 4 r.workBits ++ putUInt 4 r.nonce))))

/-- Modelled from the spec: `encode` of an AnnounceHeader (section 4.2), which
is absent from the header. -/
def encodeAnnounceHeader (r : AnnounceHeader) : List Byte :=
  putUInt 1 r.version ++ (putUInt 3 r.softNonce ++ (putUInt 4 r.hardNonce ++
    (putUInt 4 r.workBits ++ (putUInt 4 r.parentBlockHeight ++
      (putUInt 8 r.contentType ++ (putBytes 32 r.contentHash ++
        putBytes 32 r.signingKey))))))

/-- Modelled from the spec: `encode` of an Announcement (section 4.2), which is
absent from the header: the header, then the 936 bytes of the proof region. -/
def encodeAnnouncement (r : Announcement) : List Byte :=
  encodeAnnounceHeader r.hdr ++ putBytes 936 r.proof

/-- Modelled from the spec: `encode` of a CoinbaseCommitment (section 4.2),
which is absent from the header; the magic written is the one of the record,
no field is defaulted. -/
def encodeCoinbaseCommitment (r : CoinbaseCommitment) : List Byte :=
  putUInt 4 r.magic ++ (putUInt 4 r.annLeastWorkTarget ++
    (putBytes 32 r.merkleRoot ++ putUInt 8 r.numAnns))

/-- Modelled from the spec: a valid BlockHeader (section 3): every integer
field fits its 32 bits and each hash is eight 32-bit words. -/
def BlockHeader.Valid (r : BlockHeader) : Prop :=
  r.version < 2 ^ 32 ∧
  (r.hashPrevBlock.length = 8 ∧ ∀ w ∈ r.hashPrevBlock, w < 2 ^ 32) ∧
  (r.hashMerkleRoot.length = 8 ∧ ∀ w ∈ r.hashMerkleRoot, w < 2 ^ 32) ∧
  r.timeSeconds < 2 ^ 32 ∧ r.workBits < 2 ^ 32 ∧ r.nonce < 2 ^ 32

/-- Modelled from the spec: a valid AnnounceHeader (section 3): every integer
field fits its width (8, 24, 32, 32, 32 and 64 bits) and the content hash and
the signing key are 256 bits each. -/
def AnnounceHeader.Valid (r : AnnounceHeader) : Prop :=
  r.version < 2 ^ 8 ∧ r.softNonce < 2 ^ 24 ∧ r.hardNonce < 2 ^ 32 ∧
  r.workBits < 2 ^ 32 ∧ r.parentBlockHeight < 2 ^ 32 ∧ r.contentType < 2 ^ 64 ∧
  r.contentHash.length = 32 ∧ r.signingKey.length = 32

/-- Modelled from the spec: a valid Announcement (section 3): a valid header
and a proof region of 936 bytes. -/
def Announcement.Valid (r : Announcement) : Prop :=
  r.hdr.Valid ∧ r.proof.length = 936

/-- Modelled from the spec: a valid CoinbaseCommitment (section 3): the magic
is the fixed tag (a record lacking it is not a valid commitment), the target
fits 32 bits, the Merkle root is 256 bits and the count fits 64 bits. -/
def CoinbaseCommitment.Valid (r : CoinbaseCommitment) : Prop :=
  r.magic = PacketCrypt_Coinbase_MAGIC ∧ r.annLeastWorkTarget < 2 ^ 32 ∧
  r.merkleRoot.length = 32 ∧ r.numAnns < 2 ^ 64

/-- A BlockHeader with version 1 and nonce `0xDEADBEEF`, all else zero. -/
def sampleBlockHeader : BlockHeader :=
  ⟨1, List.replicate 8 0, List.replicate 8 0, 0, 0, 0xDEADBEEF⟩

/-- An AnnounceHeader with a few non-zero fields. -/
def sampleAnnounceHeader : AnnounceHeader :=
  ⟨0, 0x010203, 7, 0x207fffff, 1000, 0x0102030405060708,
    List.replicate 32 (0xAB : Byte), List.replicate 32 (0 : Byte)⟩

/-- An Announcement of `sampleAnnounceHeader` and a proof region of 936 bytes. -/
def sampleAnnouncement : Announcement :=
  ⟨sampleAnnounceHeader, List.replicate 936 (0x5A : Byte)⟩

/-- A CoinbaseCommitment with the right magic. -/
def sampleCoinbaseCommitment : CoinbaseCommitment :=
  ⟨PacketCrypt_Coinbase_MAGIC, 0x207fffff, List.replicate 32 (0x11 : Byte), 4096⟩

/-- The fixed part of a bundle, all zero except for the field `proofLen`
at offset 84, which holds the little-endian bytes `b0 b1 b2 b3`. -/
def zeroFixed (b0 b1 b2 b3 : Byte) : List Byte :=
  List.replicate 84 (0 : Byte) ++ [b0, b1, b2, b3]

/-- A buffer made of `zeroFixed` declaring the proof length 8 and of `rest`
zero bytes after it; it is a well-sized bundle when `rest = 4 * 1024 + 8`. -/
def zeroBundle (rest : Nat) : List Byte :=
  zeroFixed 8 0 0 0 ++ List.replicate rest (0 : Byte)

/-- The 88 bytes of a fixed part that declares the proof length `0xFFFFF000`
(little-endian `00 F0 FF FF` at offset 84), with nothing after it. -/
def wrapBundle : List Byte := zeroFixed 0x00 0xF0 0xFF 0xFF

/-! ## Admissible platforms -/



theorem pow2_le_eight {a : Nat} (h : ∃ k, a = 2 ^ k) (hle : a ≤ 8) :
    a = 1 ∨ a = 2 ∨ a = 4 ∨ a = 8 := by
  obtain ⟨k, rfl⟩ := h
  have hk : k < 4 := by
    by_contra hge
    have : 2 ^ 4 ≤ 2 ^ k := Nat.pow_le_pow_right (by norm_num) (by omega)
    omega
  interval_cases k <;> simp

theorem Platform.Admissible.mem {p : Platform} (h : p.Admissible) :
    p ∈ admissiblePlatforms := by
  obtain ⟨a, b, c⟩ := p
  obtain ⟨⟨ha, ha1⟩, ⟨hb, hb4⟩, ⟨hc, hc8⟩⟩ := h
  simp only at ha ha1 hb hb4 hc hc8
  have h1 := pow2_le_eight ha (by omega)
  have h2 := pow2_le_eight hb (by omega)
  have h3 := pow2_le_eight hc hc8
  have ea : a = 1 := by omega
  subst ea
  rcases h2 with rfl | rfl | rfl | rfl <;> rcases h3 with rfl | rfl | rfl | rfl <;>
    first
      | omega
      | simp [admissiblePlatforms]

theorem Platform.natural_admissible : Platform.natural.Admissible :=
  ⟨⟨⟨0, rfl⟩, by decide⟩, ⟨⟨2, rfl⟩, by decide⟩, ⟨⟨3, rfl⟩, by decide⟩⟩

theorem sizeof_HeaderAndProof (p : Platform) (hp : p.Admissible) :
    sizeof (PacketCrypt_HeaderAndProof_t p) = 4192 := by
  have hm := hp.mem
  clear hp
  revert p
  decide

/-! ## Arithmetic of `size_t` -/

theorem usub_of_le {bits a b : Nat} (hba : b ≤ a) (ha : a < 2 ^ bits) :
    usub bits a b = a - b := by
  have hb : b < 2 ^ bits := by omega
  rw [usub, Nat.mod_eq_of_lt ha, Nat.mod_eq_of_lt hb]
  have e : a + 2 ^ bits - b = a - b + 2 ^ bits := by omega
  rw [e, Nat.add_mod_right, Nat.mod_eq_of_lt (by omega)]

theorem uadd_of_lt {bits a b : Nat} (h : a + b < 2 ^ bits) : uadd bits a b = a + b := by
  rw [uadd, Nat.mod_eq_of_lt (by omega : a < 2 ^ bits),
    Nat.mod_eq_of_lt (by omega : b < 2 ^ bits), Nat.mod_eq_of_lt h]

theorem two_pow_of_gt_4184 {bits : Nat} (h : 4184 < 2 ^ bits) : 8192 ≤ 2 ^ bits := by
  have hb : 13 ≤ bits := by
    by_contra hlt
    have hle : 2 ^ bits ≤ 2 ^ 12 := Nat.pow_le_pow_right (by norm_num) (by omega)
    norm_num at hle
    omega
  have hle : 2 ^ 13 ≤ 2 ^ bits := Nat.pow_le_pow_right (by norm_num) hb
  norm_num at hle
  exact hle

theorem SIZEOF_size_t_of_fits (bits : Nat) (p : Platform) (hp : p.Admissible) (n : Nat)
    (hfit : 4184 + n < 2 ^ bits) :
    PacketCrypt_HeaderAndProof_SIZEOF_size_t bits p n = 4184 + n := by
  have hpow := two_pow_of_gt_4184 (by omega : 4184 < 2 ^ bits)
  rw [PacketCrypt_HeaderAndProof_SIZEOF_size_t, sizeof_HeaderAndProof p hp,
    usub_of_le (by norm_num) (by omega), uadd_of_lt (by omega)]

/-! ## The layout rule pads where C pads -/

theorem struct_pads_before_member :
    place 0 [("a", uint8_t Platform.natural), ("b", uint32_t Platform.natural)] =
        [("a", 0, 1), ("b", 4, 4)] ∧
      sizeof (CType.struct
        [("a", uint8_t Platform.natural), ("b", uint32_t Platform.natural)]) = 8 := by
  decide

theorem struct_pads_at_end :
    sizeof (CType.struct
      [("a", uint64_t Platform.natural), ("b", uint8_t Platform.natural)]) = 16 := by
  decide

theorem Coinbase_padded_when_not_admissible :
    offsetof (PacketCrypt_Coinbase_members ⟨1, 4, 16⟩) "numAnns" = some 48 ∧
      sizeof (PacketCrypt_Coinbase_t ⟨1, 4, 16⟩) = 64 := by
  decide

/-! ## The size macro and the record layouts -/

/-- C1 (counterexample): with a 32-bit `size_t` and `proofLen = 4294967295` the
macro yields 4183, not `80 + 4 + 4 + 4*1024 + proofLen = 4294971479`. -/
theorem HeaderAndProof_SIZEOF_size_t_wraps :
    PacketCrypt_HeaderAndProof_SIZEOF_size_t 32 Platform.ia32 4294967295 = 4183 ∧
      PacketCrypt_HeaderAndProof_SIZEOF_size_t 32 Platform.ia32 4294967295 ≠
        80 + 4 + 4 + 4 * 1024 + 4294967295 := by
  decide

/-- C1 (amended): on every admissible platform, for a `size_t` of any width
`bits` and every proof length `n` such that `4184 + n` fits `size_t`
(`4184 + n < 2 ^ bits`), `PacketCrypt_HeaderAndProof_SIZEOF(n)`, that is
`sizeof(PacketCrypt_HeaderAndProof_t) - 8 + n` computed in `size_t`, equals
`80 + 4 + 4 + 4*1024 + n = 4184 + n`, which is also its value over the
unbounded naturals; it is 4184, 4192 and 5184 for `n = 0, 8, 1000`. -/
theorem HeaderAndProof_SIZEOF_size_t_eq (bits : Nat) (p : Platform) (hp : p.Admissible)
    (n : Nat) (hfit : 4184 + n < 2 ^ bits) :
    PacketCrypt_HeaderAndProof_SIZEOF_size_t bits p n =
        uadd bits (usub bits (sizeof (PacketCrypt_HeaderAndProof_t p)) 8) n ∧
      usub bits (sizeof (PacketCrypt_HeaderAndProof_t p)) 8 =
        sizeof (PacketCrypt_HeaderAndProof_t p) - 8 ∧
      PacketCrypt_HeaderAndProof_SIZEOF_size_t bits p n =
        sizeof (PacketCrypt_HeaderAndProof_t p) - 8 + n ∧
      PacketCrypt_HeaderAndProof_SIZEOF_size_t bits p n = 80 + 4 + 4 + 4 * 1024 + n ∧
      PacketCrypt_HeaderAndProof_SIZEOF_size_t bits p n = 4184 + n ∧
      PacketCrypt_HeaderAndProof_SIZEOF_size_t bits p n =
        PacketCrypt_HeaderAndProof_SIZEOF p n ∧
      PacketCrypt_HeaderAndProof_SIZEOF_size_t bits p 0 = 4184 ∧
      PacketCrypt_HeaderAndProof_SIZEOF_size_t bits p 8 = 4192 ∧
      PacketCrypt_HeaderAndProof_SIZEOF_size_t bits p 1000 = 5184 := by
  have hpow := two_pow_of_gt_4184 (by omega : 4184 < 2 ^ bits)
  have h := sizeof_HeaderAndProof p hp
  have hn := SIZEOF_size_t_of_fits bits p hp n hfit
  have h0 := SIZEOF_size_t_of_fits bits p hp 0 (by omega)
  have h8 := SIZEOF_size_t_of_fits bits p hp 8 (by omega)
  have h1000 := SIZEOF_size_t_of_fits bits p hp 1000 (by omega)
  refine ⟨rfl, ?_, ?_, ?_, hn, ?_, h0, h8, h1000⟩
  · rw [h, usub_of_le (by norm_num) (by omega)]
  · rw [hn, h]
  · rw [hn]
  · rw [hn, PacketCrypt_HeaderAndProof_SIZEOF, h]

theorem HeaderAndProof_SIZEOF_size_t_eq_witness :
    Platform.natural.Admissible ∧ 4184 + 1000 < 2 ^ 32 ∧
      PacketCrypt_HeaderAndProof_SIZEOF_size_t 32 Platform.natural 1000 = 4184 + 1000 ∧
      PacketCrypt_HeaderAndProof_SIZEOF_size_t 32 Platform.natural 1000 = 5184 :=
  ⟨Platform.natural_admissible, by decide,
    (HeaderAndProof_SIZEOF_size_t_eq 32 Platform.natural Platform.natural_admissible 1000
      (by decide)).2.2.2.2.1,
    (HeaderAndProof_SIZEOF_size_t_eq 32 Platform.natural Platform.natural_admissible 1000
      (by decide)).2.2.2.2.2.2.2.2⟩

/-- C2: on every admissible platform `PacketCrypt_BlockHeader_t` is exactly 80
bytes, its members lie where the diagram of the comment puts them (version at
0, hashPrevBlock at 4 with 32 bytes, hashMerkleRoot at 36 with 32 bytes,
timeSeconds at 68, workBits at 72, nonce at 76), and every member starts where
the one before it ends. -/
theorem BlockHeader_layout (p : Platform) (hp : p.Admissible) :
    sizeof (PacketCrypt_BlockHeader_t p) = 80 ∧
      place 0 (PacketCrypt_BlockHeader_members p) =
        [("version", 0, 4), ("hashPrevBlock", 4, 32), ("hashMerkleRoot", 36, 32),
         ("timeSeconds", 68, 4), ("workBits", 72, 4), ("nonce", 76, 4)] ∧
      offsetof (PacketCrypt_BlockHeader_members p) "version" = some 0 ∧
      offsetof (PacketCrypt_BlockHeader_members p) "hashPrevBlock" = some 4 ∧
      memberSize (PacketCrypt_BlockHeader_members p) "hashPrevBlock" = some 32 ∧
      offsetof (PacketCrypt_BlockHeader_members p) "hashMerkleRoot" = some 36 ∧
      memberSize (PacketCrypt_BlockHeader_members p) "hashMerkleRoot" = some 32 ∧
      offsetof (PacketCrypt_BlockHeader_members p) "timeSeconds" = some 68 ∧
      offsetof (PacketCrypt_BlockHeader_members p) "workBits" = some 72 ∧
      offsetof (PacketCrypt_BlockHeader_members p) "nonce" = some 76 ∧
      extents (place 0 (PacketCrypt_BlockHeader_members p)) =
        ranges PacketCrypt_BlockHeader_diagram ∧
      (place 0 (PacketCrypt_BlockHeader_members p)).map (fun m => m.1) =
        PacketCrypt_BlockHeader_diagram.map (fun r => r.1) ∧
      tiles 0 (extents (place 0 (PacketCrypt_BlockHeader_members p)))
        (sizeof (PacketCrypt_BlockHeader_t p)) = true := by
  have hm := hp.mem
  clear hp
  revert p
  decide

theorem BlockHeader_layout_witness :
    Platform.natural.Admissible ∧
      sizeof (PacketCrypt_BlockHeader_t Platform.natural) = 80 ∧
      offsetof (PacketCrypt_BlockHeader_members Platform.natural) "nonce" = some 76 :=
  ⟨Platform.natural_admissible,
    (BlockHeader_layout Platform.natural Platform.natural_admissible).1,
    (BlockHeader_layout Platform.natural
      Platform.natural_admissible).2.2.2.2.2.2.2.2.2.1⟩

/-- C3: on every admissible platform `PacketCrypt_AnnounceHdr_t` is exactly 88
bytes, its members lie where the diagram of the comment puts them (version at
0 with 1 byte, softNonce at 1 with 3 bytes, hardNonce at 4, workBits at 8,
parentBlockHeight at 12, contentType at 16 with 8 bytes, contentHash at 24
with 32 bytes, signingKey at 56 with 32 bytes), and there is no gap between
consecutive members. -/
theorem AnnounceHdr_layout (p : Platform) (hp : p.Admissible) :
    sizeof (PacketCrypt_AnnounceHdr_t p) = 88 ∧
      place 0 (PacketCrypt_AnnounceHdr_members p) =
        [("version", 0, 1), ("softNonce", 1, 3), ("hardNonce", 4, 4),
         ("workBits", 8, 4), ("parentBlockHeight", 12, 4), ("contentType", 16, 8),
         ("contentHash", 24, 32), ("signingKey", 56, 32)] ∧
      offsetof (PacketCrypt_AnnounceHdr_members p) "version" = some 0 ∧
      memberSize (PacketCrypt_AnnounceHdr_members p) "version" = some 1 ∧
      offsetof (PacketCrypt_AnnounceHdr_members p) "softNonce" = some 1 ∧
      memberSize (PacketCrypt_AnnounceHdr_members p) "softNonce" = some 3 ∧
      offsetof (PacketCrypt_AnnounceHdr_members p) "hardNonce" = some 4 ∧
      offsetof (PacketCrypt_AnnounceHdr_members p) "workBits" = some 8 ∧
      offsetof (PacketCrypt_AnnounceHdr_members p) "parentBlockHeight" = some 12 ∧
      offsetof (PacketCrypt_AnnounceHdr_members p) "contentType" = some 16 ∧
      memberSize (PacketCrypt_AnnounceHdr_members p) "contentType" = some 8 ∧
      offsetof (PacketCrypt_AnnounceHdr_members p) "contentHash" = some 24 ∧
      memberSize (PacketCrypt_AnnounceHdr_members p) "contentHash" = some 32 ∧
      offsetof (PacketCrypt_AnnounceHdr_members p) "signingKey" = some 56 ∧
      memberSize (PacketCrypt_AnnounceHdr_members p) "signingKey" = some 32 ∧
      extents (place 0 (PacketCrypt_AnnounceHdr_members p)) =
        ranges PacketCrypt_AnnounceHdr_diagram ∧
      tiles 0 (extents (place 0 (PacketCrypt_AnnounceHdr_members p)))
        (sizeof (PacketCrypt_AnnounceHdr_t p)) = true := by
  have hm := hp.mem
  clear hp
  revert p
  decide

theorem AnnounceHdr_layout_witness :
    Platform.ia32.Admissible ∧ sizeof (PacketCrypt_AnnounceHdr_t Platform.ia32) = 88 :=
  ⟨⟨⟨⟨0, rfl⟩, by decide⟩, ⟨⟨2, rfl⟩, by decide⟩, ⟨⟨2, rfl⟩, by decide⟩⟩,
    (AnnounceHdr_layout Platform.ia32
      ⟨⟨⟨0, rfl⟩, by decide⟩, ⟨⟨2, rfl⟩, by decide⟩, ⟨⟨2, rfl⟩, by decide⟩⟩).1⟩

/-- C4: on every admissible platform `PacketCrypt_Announce_t` is exactly 1024
bytes: the 88-byte header at offset 0, then at offset 88 the proof region of
117 64-bit words, 936 bytes.  The partition of the comment,
`[Header 0:88][AnnMerkle proof 88:1008][Item 4 Prefix 1008:1024]`, covers the
record exactly: its first region is the member `hdr`, its other two regions
tile the member `proof`, and the item prefix is the last 16 bytes of the proof
region, 920 bytes into it. -/
theorem Announce_layout (p : Platform) (hp : p.Admissible) :
    sizeof (PacketCrypt_Announce_t p) = 1024 ∧
      place 0 (PacketCrypt_Announce_members p) = [("hdr", 0, 88), ("proof", 88, 936)] ∧
      offsetof (PacketCrypt_Announce_members p) "hdr" = some 0 ∧
      memberSize (PacketCrypt_Announce_members p) "hdr" = some 88 ∧
      offsetof (PacketCrypt_Announce_members p) "proof" = some 88 ∧
      memberSize (PacketCrypt_Announce_members p) "proof" = some (117 * 8) ∧
      117 * sizeof (uint64_t p) = 936 ∧
      tiles 0 (extents (place 0 (PacketCrypt_Announce_members p)))
        (sizeof (PacketCrypt_Announce_t p)) = true ∧
      tiles 0 (ranges PacketCrypt_Announce_diagram)
        (sizeof (PacketCrypt_Announce_t p)) = true ∧
      (ranges PacketCrypt_Announce_diagram).take 1 =
        (extents (place 0 (PacketCrypt_Announce_members p))).take 1 ∧
      tiles 88 ((ranges PacketCrypt_Announce_diagram).drop 1) (88 + 936) = true ∧
      (ranges PacketCrypt_Announce_diagram).drop 2 = [(88 + 920, 88 + 920 + 16)] ∧
      88 + 920 + 16 = sizeof (PacketCrypt_Announce_t p) ∧
      920 + 16 = 936 := by
  have hm := hp.mem
  clear hp
  revert p
  decide

theorem Announce_layout_witness :
    Platform.natural.Admissible ∧
      sizeof (PacketCrypt_Announce_t Platform.natural) = 1024 :=
  ⟨Platform.natural_admissible,
    (Announce_layout Platform.natural Platform.natural_admissible).1⟩

/-- C5: on every admissible platform `PacketCrypt_HeaderAndProof_t` embeds
exactly `PacketCrypt_NUM_ANNS = 4` announcements: blockHeader is at offset 0,
nonce2 at 80, proofLen at 84, announcement `i` at `88 + 1024 * i` for every
`i < 4`, the member `announcements` is 4 * 1024 bytes, and the trailing proof
buffer starts at `4184 = PacketCrypt_HeaderAndProof_SIZEOF(0)`; the declared
struct, with its 8-byte placeholder, has
`sizeof = 80 + 4 + 4 + 4*1024 + 8 = 4192 = PacketCrypt_HeaderAndProof_SIZEOF(8)`. -/
theorem HeaderAndProof_layout (p : Platform) (hp : p.Admissible) :
    PacketCrypt_NUM_ANNS = 4 ∧
      place 0 (PacketCrypt_HeaderAndProof_members p) =
        [("blockHeader", 0, 80), ("nonce2", 80, 4), ("proofLen", 84, 4),
         ("announcements", 88, 4 * 1024), ("proof", 4184, 8)] ∧
      offsetof (PacketCrypt_HeaderAndProof_members p) "blockHeader" = some 0 ∧
      offsetof (PacketCrypt_HeaderAndProof_members p) "nonce2" = some 80 ∧
      offsetof (PacketCrypt_HeaderAndProof_members p) "proofLen" = some 84 ∧
      offsetof (PacketCrypt_HeaderAndProof_members p) "announcements" = some 88 ∧
      memberSize (PacketCrypt_HeaderAndProof_members p) "announcements" =
        some (PacketCrypt_NUM_ANNS * sizeof (PacketCrypt_Announce_t p)) ∧
      (∀ i, i < PacketCrypt_NUM_ANNS →
        offsetofElem (PacketCrypt_HeaderAndProof_members p) "announcements"
          (PacketCrypt_Announce_t p) i = some (88 + 1024 * i)) ∧
      offsetofElem (PacketCrypt_HeaderAndProof_members p) "announcements"
          (PacketCrypt_Announce_t p) PacketCrypt_NUM_ANNS =
        offsetof (PacketCrypt_HeaderAndProof_members p) "proof" ∧
      offsetof (PacketCrypt_HeaderAndProof_members p) "proof" = some 4184 ∧
      offsetof (PacketCrypt_HeaderAndProof_members p) "proof" =
        some (PacketCrypt_HeaderAndProof_SIZEOF p 0) ∧
      sizeof (PacketCrypt_HeaderAndProof_t p) = 80 + 4 + 4 + 4 * 1024 + 8 ∧
      sizeof (PacketCrypt_HeaderAndProof_t p) = 4192 ∧
      sizeof (PacketCrypt_HeaderAndProof_t p) = PacketCrypt_HeaderAndProof_SIZEOF p 8 := by
  have hm := hp.mem
  clear hp
  revert p
  decide

theorem HeaderAndProof_layout_witness :
    Platform.natural.Admissible ∧
      offsetofElem (PacketCrypt_HeaderAndProof_members Platform.natural) "announcements"
        (PacketCrypt_Announce_t Platform.natural) 3 = some (88 + 1024 * 3) :=
  ⟨Platform.natural_admissible,
    (HeaderAndProof_layout Platform.natural
      Platform.natural_admissible).2.2.2.2.2.2.2.1 3 (by decide)⟩

/-- C6: on every admissible platform `PacketCrypt_Coinbase_t` is exactly 48
bytes (`32 + 8 + 4 + 4`), with magic at offset 0, annLeastWorkTarget at 4,
merkleRoot at 8 with 32 bytes and numAnns at 40 with 8 bytes; the constant
`PacketCrypt_Coinbase_MAGIC` is `0x0211f909`, which fits the 32 bits (the four
bytes) of the magic field. -/
theorem Coinbase_layout (p : Platform) (hp : p.Admissible) :
    sizeof (PacketCrypt_Coinbase_t p) = 48 ∧
      sizeof (PacketCrypt_Coinbase_t p) = 32 + 8 + 4 + 4 ∧
      place 0 (PacketCrypt_Coinbase_members p) =
        [("magic", 0, 4), ("annLeastWorkTarget", 4, 4), ("merkleRoot", 8, 32),
         ("numAnns", 40, 8)] ∧
      offsetof (PacketCrypt_Coinbase_members p) "magic" = some 0 ∧
      memberSize (PacketCrypt_Coinbase_members p) "magic" = some 4 ∧
      offsetof (PacketCrypt_Coinbase_members p) "annLeastWorkTarget" = some 4 ∧
      offsetof (PacketCrypt_Coinbase_members p) "merkleRoot" = some 8 ∧
      memberSize (PacketCrypt_Coinbase_members p) "merkleRoot" = some 32 ∧
      offsetof (PacketCrypt_Coinbase_members p) "numAnns" = some 40 ∧
      memberSize (PacketCrypt_Coinbase_members p) "numAnns" = some 8 ∧
      PacketCrypt_Coinbase_MAGIC = 0x0211f909 ∧
      PacketCrypt_Coinbase_MAGIC < 2 ^ 32 ∧
      PacketCrypt_Coinbase_MAGIC < 2 ^ (8 * sizeof (uint32_t p)) := by
  have hm := hp.mem
  clear hp
  revert p
  decide

theorem Coinbase_layout_witness :
    Platform.natural.Admissible ∧
      sizeof (PacketCrypt_Coinbase_t Platform.natural) = 48 :=
  ⟨Platform.natural_admissible,
    (Coinbase_layout Platform.natural Platform.natural_admissible).1⟩

/-- C7: on every admissible platform `PacketCrypt_ValidateCtx_t` is exactly
8192 bytes: its only member is `progbuf`, an array of 2048 32-bit words at
offset 0 (`2048 * 4 = 8192`). -/
theorem ValidateCtx_layout (p : Platform) (hp : p.Admissible) :
    sizeof (PacketCrypt_ValidateCtx_t p) = 8192 ∧
      PacketCrypt_ValidateCtx_members p = [("progbuf", (uint32_t p).array 2048)] ∧
      place 0 (PacketCrypt_ValidateCtx_members p) = [("progbuf", 0, 8192)] ∧
      sizeof (uint32_t p) = 4 ∧
      sizeof ((uint32_t p).array 2048) = 2048 * 4 ∧
      2048 * 4 = 8192 := by
  have hm := hp.mem
  clear hp
  revert p
  decide

theorem ValidateCtx_layout_witness :
    Platform.packed.Admissible ∧
      sizeof (PacketCrypt_ValidateCtx_t Platform.packed) = 8192 :=
  ⟨⟨⟨⟨0, rfl⟩, by decide⟩, ⟨⟨0, rfl⟩, by decide⟩, ⟨⟨0, rfl⟩, by decide⟩⟩,
    (ValidateCtx_layout Platform.packed
      ⟨⟨⟨0, rfl⟩, by decide⟩, ⟨⟨0, rfl⟩, by decide⟩, ⟨⟨0, rfl⟩, by decide⟩⟩).1⟩

/-- C8: for every assignment of alignments to `uint8_t`, `uint32_t` and
`uint64_t` in which each alignment is a power of two not larger than the size
of the type, every struct of the header has `sizeof` equal to the sum of the
sizes of its members (no padding): BlockHeader 80, AnnounceHdr 88, Announce
1024, HeaderAndProof 4192, Coinbase 48, Find 16, ValidateCtx 8192; so every
`_Static_assert` of the header passes. -/
theorem sizes_on_every_platform (p : Platform) (hp : p.Admissible) :
    (sizeof (PacketCrypt_BlockHeader_t p) = membersSize (PacketCrypt_BlockHeader_members p) ∧
        sizeof (PacketCrypt_BlockHeader_t p) = 80) ∧
      (sizeof (PacketCrypt_AnnounceHdr_t p) = membersSize (PacketCrypt_AnnounceHdr_members p) ∧
        sizeof (PacketCrypt_AnnounceHdr_t p) = 88) ∧
      (sizeof (PacketCrypt_Announce_t p) = membersSize (PacketCrypt_Announce_members p) ∧
        sizeof (PacketCrypt_Announce_t p) = 1024) ∧
      (sizeof (PacketCrypt_HeaderAndProof_t p) =
          membersSize (PacketCrypt_HeaderAndProof_members p) ∧
        sizeof (PacketCrypt_HeaderAndProof_t p) = 4192) ∧
      (sizeof (PacketCrypt_Coinbase_t p) = membersSize (PacketCrypt_Coinbase_members p) ∧
        sizeof (PacketCrypt_Coinbase_t p) = 48) ∧
      (sizeof (PacketCrypt_Find_t p) = membersSize (PacketCrypt_Find_members p) ∧
        sizeof (PacketCrypt_Find_t p) = 16) ∧
      (sizeof (PacketCrypt_ValidateCtx_t p) = membersSize (PacketCrypt_ValidateCtx_members p) ∧
        sizeof (PacketCrypt_ValidateCtx_t p) = 8192) ∧
      (staticAsserts p).length = 7 ∧
      ∀ a ∈ staticAsserts p, a = true := by
  have hm := hp.mem
  clear hp
  revert p
  decide

theorem sizes_on_every_platform_witness :
    Platform.natural.Admissible ∧
      sizeof (PacketCrypt_HeaderAndProof_t Platform.natural) =
        membersSize (PacketCrypt_HeaderAndProof_members Platform.natural) :=
  ⟨Platform.natural_admissible,
    (sizes_on_every_platform Platform.natural Platform.natural_admissible).2.2.2.1.1⟩

theorem readBytes_ok {buf : List Byte} {off n : Nat} (h : off + n ≤ buf.length) :
    readBytes buf off n = .ok ((buf.drop off).take n) := by
  simp [readBytes, h]

theorem readUInt_ok {buf : List Byte} {off width : Nat} (h : off + width ≤ buf.length) :
    readUInt buf off width = .ok (leValue ((buf.drop off).take width)) := by
  simp [readUInt, readBytes_ok h]

theorem readWords_ok (buf : List Byte) (width : Nat) :
    ∀ (count off : Nat), off + width * count ≤ buf.length →
      ∃ ws, readWords buf off width count = .ok ws
  | 0, _, _ => ⟨[], rfl⟩
  | count + 1, off, h => by
    have h1 : off + width ≤ buf.length := by
      have : width * (count + 1) = width * count + width := by ring
      omega
    have h2 : off + width + width * count ≤ buf.length := by
      have : width * (count + 1) = width * count + width := by ring
      omega
    obtain ⟨ws, hws⟩ := readWords_ok buf width count (off + width) h2
    exact ⟨leValue ((buf.drop off).take width) :: ws, by simp [readWords, readUInt_ok h1, hws]⟩

theorem decodeBlockHeader_ok {buf : List Byte} (h : buf.length = 80) :
    ∃ r, decodeBlockHeader buf = .ok r := by
  obtain ⟨w1, hw1⟩ := readWords_ok buf 4 8 4 (by omega)
  obtain ⟨w2, hw2⟩ := readWords_ok buf 4 8 36 (by omega)
  simp [decodeBlockHeader, h, hw1, hw2, readUInt, readBytes, bind, Except.bind, pure, Except.pure]

theorem decodeAnnounceHeader_ok {buf : List Byte} (h : buf.length = 88) :
    ∃ r, decodeAnnounceHeader buf = .ok r := by
  simp [decodeAnnounceHeader, h, readUInt, readBytes, bind, Except.bind, pure, Except.pure]

theorem decodeAnnouncement_ok {buf : List Byte} (h : buf.length = 1024) :
    ∃ r, decodeAnnouncement buf = .ok r := by
  obtain ⟨hdr, hhdr⟩ := @decodeAnnounceHeader_ok ((buf.drop 0).take 88)
    (by simp [h])
  simp at hhdr
  simp [decodeAnnouncement, h, readBytes, hhdr, bind, Except.bind, pure, Except.pure]

theorem decodeAnnouncements_ok (buf : List Byte) :
    ∀ (count off : Nat), off + 1024 * count ≤ buf.length →
      ∃ as, decodeAnnouncements buf off count = .ok as
  | 0, _, _ => ⟨[], rfl⟩
  | count + 1, off, h => by
    have h1 : off + 1024 ≤ buf.length := by omega
    obtain ⟨a, ha⟩ := @decodeAnnouncement_ok ((buf.drop off).take 1024)
      (by simp; omega)
    obtain ⟨as, has⟩ := decodeAnnouncements_ok buf count (off + 1024) (by omega)
    exact ⟨a :: as, by simp [decodeAnnouncements, readBytes_ok h1, ha, has]⟩

theorem length_of_readUInt {buf : List Byte} {off width v : Nat}
    (h : readUInt buf off width = .ok v) : off + width ≤ buf.length := by
  by_contra hlt
  simp [readUInt, readBytes, hlt] at h

theorem readUInt_fixed {buf : List Byte} (hlen : 88 ≤ buf.length) :
    readUInt ((buf.drop 0).take (80 + 4 + 4)) 84 4 = readUInt buf 84 4 := by
  rw [readUInt_ok (by simp; omega), readUInt_ok (by omega)]
  simp [List.drop_take, List.take_take]

theorem readUInt_append {a : List Byte} (b : List Byte) {off width : Nat}
    (h : off + width ≤ a.length) :
    readUInt (a ++ b) off width = readUInt a off width := by
  rw [readUInt_ok (by simp; omega), readUInt_ok h,
    List.drop_append_of_le_length (by omega),
    List.take_append_of_le_length (by simp; omega)]

theorem readUInt_zeroBundle (rest : Nat) : readUInt (zeroBundle rest) 84 4 = .ok 8 := by
  rw [zeroBundle, readUInt_append _ (by decide)]
  rfl

theorem length_zeroBundle (rest : Nat) : (zeroBundle rest).length = 88 + rest := by
  have h : (zeroFixed 8 0 0 0).length = 88 := by decide
  rw [zeroBundle, List.length_append, List.length_replicate, h]

theorem leValue_lt : ∀ bs : List Byte, leValue bs < 256 ^ bs.length
  | [] => by simp [leValue]
  | b :: bs => by
    have ih := leValue_lt bs
    have hb := b.isLt
    simp only [leValue, List.length_cons, pow_succ]
    omega

theorem decodeHeaderAndProof_of_length {buf : List Byte} {proofLen : Nat}
    (h : readUInt buf 84 4 = .ok proofLen) :
    (buf.length < 80 + 4 + 4 + 4 * 1024 + proofLen →
        decodeHeaderAndProof buf = .error .Truncated) ∧
      (80 + 4 + 4 + 4 * 1024 + proofLen < buf.length →
        decodeHeaderAndProof buf = .error .TrailingBytes) ∧
      (buf.length = 80 + 4 + 4 + 4 * 1024 + proofLen →
        ∃ r, decodeHeaderAndProof buf = .ok r) := by
  have hlen : 88 ≤ buf.length := length_of_readUInt h
  have hfixed : readBytes buf 0 (80 + 4 + 4) = .ok ((buf.drop 0).take (80 + 4 + 4)) :=
    readBytes_ok (by omega)
  have hnonce2 := @readUInt_ok ((buf.drop 0).take (80 + 4 + 4)) 80 4
    (by simp; omega)
  have hproofLen := (readUInt_fixed hlen).trans h
  refine ⟨?_, ?_, ?_⟩
  · intro hlt
    simp only [decodeHeaderAndProof, hfixed, hnonce2, hproofLen, bind, Except.bind]
    simp [hlt]
  · intro hgt
    have hnlt : ¬ buf.length < 80 + 4 + 4 + 4 * 1024 + proofLen := by omega
    simp only [decodeHeaderAndProof, hfixed, hnonce2, hproofLen, bind, Except.bind]
    simp [hnlt, hgt]
  · intro heq
    have hnlt : ¬ buf.length < 80 + 4 + 4 + 4 * 1024 + proofLen := by omega
    have hngt : ¬ buf.length > 80 + 4 + 4 + 4 * 1024 + proofLen := by omega
    obtain ⟨bh, hbh⟩ := @decodeBlockHeader_ok
      (((buf.drop 0).take (80 + 4 + 4)).take 80) (by simp; omega)
    obtain ⟨as, has⟩ := decodeAnnouncements_ok buf 4 (80 + 4 + 4) (by omega)
    have hproof := @readBytes_ok buf (80 + 4 + 4 + 4 * 1024) proofLen
      (by omega)
    simp only [decodeHeaderAndProof, hfixed, hnonce2, hproofLen, bind, Except.bind]
    simp only [hnlt, hngt, if_false, hbh, has, hproof, pure, Except.pure]
    exact ⟨_, rfl⟩

theorem decodeCoinbaseCommitment_ok {buf : List Byte} (hlen : buf.length = 48)
    (hmagic : readUInt buf 0 4 = .ok PacketCrypt_Coinbase_MAGIC) :
    ∃ r, decodeCoinbaseCommitment buf = .ok r := by
  have h1 := @readUInt_ok buf 4 4 (by omega)
  have h2 := @readBytes_ok buf 8 32 (by omega)
  have h3 := @readUInt_ok buf 40 8 (by omega)
  simp only [decodeCoinbaseCommitment, hlen, hmagic, h1, h2, h3, bind, Except.bind, pure,
    Except.pure]
  simp

/-! ## The decoders -/

/-- C9 (counterexample): with a 32-bit `size_t`, the 88-byte buffer
`wrapBundle` declares `proofLen = 0xFFFFF000`, for which the macro wraps to
`PacketCrypt_HeaderAndProof_SIZEOF(proofLen) = 88`, the length of the buffer;
still the decode fails with `Truncated`, so success is not equivalent to the
length being the value of the macro. -/
theorem decodeHeaderAndProof_wrapBundle :
    readUInt wrapBundle 84 4 = .ok 0xFFFFF000 ∧
      wrapBundle.length =
        PacketCrypt_HeaderAndProof_SIZEOF_size_t 32 Platform.natural 0xFFFFF000 ∧
      decodeHeaderAndProof wrapBundle = .error .Truncated ∧
      ¬ ((∃ r, decodeHeaderAndProof wrapBundle = .ok r) ↔
        wrapBundle.length =
          PacketCrypt_HeaderAndProof_SIZEOF_size_t 32 Platform.natural 0xFFFFF000) := by
  have h1 : readUInt wrapBundle 84 4 = .ok 0xFFFFF000 := by rfl
  have h2 : wrapBundle.length =
      PacketCrypt_HeaderAndProof_SIZEOF_size_t 32 Platform.natural 0xFFFFF000 := by decide
  have h3 : decodeHeaderAndProof wrapBundle = .error .Truncated :=
    (decodeHeaderAndProof_of_length h1).1 (by decide)
  refine ⟨h1, h2, h3, ?_⟩
  intro hiff
  obtain ⟨r, hr⟩ := hiff.mpr h2
  rw [h3] at hr
  cases hr

/-- C9 (amended): for every byte buffer whose fixed part declares the proof
length `proofLen` (the little-endian 32-bit field at offset 84), decoding it as
a HeaderAndProof bundle succeeds if and only if the length of the buffer is
`80 + 4 + 4 + 4096 + proofLen`; a buffer one byte shorter (any shorter buffer)
yields `Truncated` and a buffer one byte longer (any longer buffer) yields
`TrailingBytes`.  That length is `PacketCrypt_HeaderAndProof_SIZEOF(proofLen)`
whenever `4184 + proofLen` fits `size_t`, on every admissible platform; when
`size_t` is 64 bits wide it always fits. -/
theorem decodeHeaderAndProof_length_fits (bits : Nat) (p : Platform) (hp : p.Admissible)
    (buf : List Byte) (proofLen : Nat) (h : readUInt buf 84 4 = .ok proofLen) :
    ((∃ r, decodeHeaderAndProof buf = .ok r) ↔
        buf.length = 80 + 4 + 4 + 4096 + proofLen) ∧
      (buf.length + 1 = 80 + 4 + 4 + 4096 + proofLen →
        decodeHeaderAndProof buf = .error .Truncated) ∧
      (buf.length = 80 + 4 + 4 + 4096 + proofLen + 1 →
        decodeHeaderAndProof buf = .error .TrailingBytes) ∧
      (buf.length < 80 + 4 + 4 + 4096 + proofLen →
        decodeHeaderAndProof buf = .error .Truncated) ∧
      (80 + 4 + 4 + 4096 + proofLen < buf.length →
        decodeHeaderAndProof buf = .error .TrailingBytes) ∧
      (4184 + proofLen < 2 ^ bits →
        80 + 4 + 4 + 4096 + proofLen =
            PacketCrypt_HeaderAndProof_SIZEOF_size_t bits p proofLen ∧
          ((∃ r, decodeHeaderAndProof buf = .ok r) ↔
            buf.length = PacketCrypt_HeaderAndProof_SIZEOF_size_t bits p proofLen) ∧
          (buf.length + 1 = PacketCrypt_HeaderAndProof_SIZEOF_size_t bits p proofLen →
            decodeHeaderAndProof buf = .error .Truncated) ∧
          (buf.length = PacketCrypt_HeaderAndProof_SIZEOF_size_t bits p proofLen + 1 →
            decodeHeaderAndProof buf = .error .TrailingBytes)) ∧
      4184 + proofLen < 2 ^ 64 ∧
      ((∃ r, decodeHeaderAndProof buf = .ok r) ↔
        buf.length = PacketCrypt_HeaderAndProof_SIZEOF_size_t 64 p proofLen) := by
  obtain ⟨hshort, hlong, hexact⟩ := decodeHeaderAndProof_of_length h
  have hiff : (∃ r, decodeHeaderAndProof buf = .ok r) ↔
      buf.length = 80 + 4 + 4 + 4096 + proofLen := by
    constructor
    · rintro ⟨r, hr⟩
      by_contra hne
      rcases Nat.lt_or_gt_of_ne hne with hlt | hgt
      · rw [hshort (by omega)] at hr
        cases hr
      · rw [hlong (by omega)] at hr
        cases hr
    · intro hlen
      exact hexact (by omega)
  have hlt32 : proofLen < 2 ^ 32 := by
    have hb := length_of_readUInt h
    rw [readUInt_ok hb] at h
    have hv : leValue ((buf.drop 84).take 4) = proofLen := by
      injection h
    have hbound := leValue_lt ((buf.drop 84).take 4)
    have hl : ((buf.drop 84).take 4).length = 4 := by
      rw [List.length_take, List.length_drop]
      omega
    rw [hl, hv] at hbound
    norm_num at hbound ⊢
    exact hbound
  have h64 : 4184 + proofLen < 2 ^ 64 := by
    norm_num at hlt32 ⊢
    omega
  have hsame : ∀ b, 4184 + proofLen < 2 ^ b →
      PacketCrypt_HeaderAndProof_SIZEOF_size_t b p proofLen =
        80 + 4 + 4 + 4096 + proofLen := by
    intro b hb
    rw [SIZEOF_size_t_of_fits b p hp proofLen hb]
  refine ⟨hiff, fun h1 => hshort (by omega), fun h1 => hlong (by omega),
    fun h1 => hshort (by omega), fun h1 => hlong (by omega), ?_, h64, ?_⟩
  · intro hfit
    rw [hsame bits hfit]
    exact ⟨rfl, hiff, fun h1 => hshort (by omega), fun h1 => hlong (by omega)⟩
  · rw [hsame 64 h64]
    exact hiff

theorem decodeHeaderAndProof_length_fits_witness :
    Platform.natural.Admissible ∧ readUInt (zeroBundle 4104) 84 4 = .ok 8 ∧
      4184 + 8 < 2 ^ 32 ∧
      (zeroBundle 4104).length =
        PacketCrypt_HeaderAndProof_SIZEOF_size_t 32 Platform.natural 8 ∧
      (∃ r, decodeHeaderAndProof (zeroBundle 4104) = .ok r) ∧
      decodeHeaderAndProof (zeroBundle 4103) = .error .Truncated ∧
      decodeHeaderAndProof (zeroBundle 4105) = .error .TrailingBytes :=
  ⟨Platform.natural_admissible, readUInt_zeroBundle 4104, by decide,
    by rw [length_zeroBundle]; decide,
    ((decodeHeaderAndProof_length_fits 32 Platform.natural Platform.natural_admissible
      (zeroBundle 4104) 8 (readUInt_zeroBundle 4104)).2.2.2.2.2.1 (by decide)).2.1.mpr
        (by rw [length_zeroBundle]; decide),
    ((decodeHeaderAndProof_length_fits 32 Platform.natural Platform.natural_admissible
      (zeroBundle 4103) 8 (readUInt_zeroBundle 4103)).2.2.2.2.2.1 (by decide)).2.2.1
        (by rw [length_zeroBundle]; decide),
    ((decodeHeaderAndProof_length_fits 32 Platform.natural Platform.natural_admissible
      (zeroBundle 4105) 8 (readUInt_zeroBundle 4105)).2.2.2.2.2.1 (by decide)).2.2.2
        (by rw [length_zeroBundle]; decide)⟩

/-- C10: decoding a 48-byte buffer as a CoinbaseCommitment whose magic field
(the little-endian 32-bit field at offset 0) is not
`PacketCrypt_Coinbase_MAGIC` yields `BadMagic` and never a successful decode,
whatever the other 44 bytes hold: no other field takes part in the outcome,
the magic check comes before every check on them. -/
theorem decodeCoinbaseCommitment_badMagic (buf : List Byte) (hlen : buf.length = 48)
    (hmagic : readUInt buf 0 4 ≠ .ok PacketCrypt_Coinbase_MAGIC) :
    decodeCoinbaseCommitment buf = .error .BadMagic ∧
      ¬ ∃ r, decodeCoinbaseCommitment buf = .ok r := by
  have h0 := @readUInt_ok buf 0 4 (by omega)
  rw [List.drop_zero] at h0
  have hne : leValue (buf.take 4) ≠ PacketCrypt_Coinbase_MAGIC := by
    intro heq
    exact hmagic (by rw [h0, heq])
  have hbad : decodeCoinbaseCommitment buf = .error .BadMagic := by
    simp only [decodeCoinbaseCommitment, hlen, h0, bind, Except.bind]
    simp [hne]
  refine ⟨hbad, ?_⟩
  rintro ⟨r, hr⟩
  rw [hbad] at hr
  cases hr

theorem decodeCoinbaseCommitment_badMagic_witness :
    (List.replicate 48 (0 : Byte)).length = 48 ∧
      decodeCoinbaseCommitment (List.replicate 48 (0 : Byte)) = .error .BadMagic :=
  ⟨by decide,
    (decodeCoinbaseCommitment_badMagic (List.replicate 48 (0 : Byte)) (by decide)
      (by simp [readUInt, readBytes, leValue, PacketCrypt_Coinbase_MAGIC])).1⟩

/-! ## The size macro as a function of the proof length -/

/-- C13: on every admissible platform `PacketCrypt_HeaderAndProof_SIZEOF` is
strictly increasing in the proof length over the unbounded naturals, hence
injective, and `SIZEOF(n) - 4184 = n`: the total length of a bundle determines
its proof length, no two proof lengths share a total size. -/
theorem HeaderAndProof_SIZEOF_strictMono (p : Platform) (hp : p.Admissible) :
    (∀ m n, m < n →
        PacketCrypt_HeaderAndProof_SIZEOF p m < PacketCrypt_HeaderAndProof_SIZEOF p n) ∧
      StrictMono (PacketCrypt_HeaderAndProof_SIZEOF p) ∧
      Function.Injective (PacketCrypt_HeaderAndProof_SIZEOF p) ∧
      (∀ n, PacketCrypt_HeaderAndProof_SIZEOF p n - 4184 = n) ∧
      (∀ m n, m ≠ n →
        PacketCrypt_HeaderAndProof_SIZEOF p m ≠ PacketCrypt_HeaderAndProof_SIZEOF p n) := by
  have h := sizeof_HeaderAndProof p hp
  have hmono : ∀ m n, m < n →
      PacketCrypt_HeaderAndProof_SIZEOF p m < PacketCrypt_HeaderAndProof_SIZEOF p n := by
    intro m n hmn
    simp only [PacketCrypt_HeaderAndProof_SIZEOF, h]
    omega
  have hinj : Function.Injective (PacketCrypt_HeaderAndProof_SIZEOF p) := by
    intro m n hmn
    simp only [PacketCrypt_HeaderAndProof_SIZEOF, h] at hmn
    omega
  refine ⟨hmono, fun m n hmn => hmono m n hmn, hinj, ?_, fun m n hne heq => hne (hinj heq)⟩
  intro n
  simp only [PacketCrypt_HeaderAndProof_SIZEOF, h]
  omega

theorem HeaderAndProof_SIZEOF_strictMono_witness :
    Platform.natural.Admissible ∧
      PacketCrypt_HeaderAndProof_SIZEOF Platform.natural 8 <
        PacketCrypt_HeaderAndProof_SIZEOF Platform.natural 1000 ∧
      PacketCrypt_HeaderAndProof_SIZEOF Platform.natural 1000 - 4184 = 1000 :=
  ⟨Platform.natural_admissible,
    (HeaderAndProof_SIZEOF_strictMono Platform.natural Platform.natural_admissible).1
      8 1000 (by decide),
    (HeaderAndProof_SIZEOF_strictMono Platform.natural
      Platform.natural_admissible).2.2.2.1 1000⟩

/-- C14: when `size_t` is 64 bits wide, on every admissible platform and for
every `proofLen` that fits the 32-bit field (`proofLen < 2^32`), the macro
evaluated modulo `2^64` does not wrap around: the subtraction `sizeof - 8` does
not borrow (`8 ≤ sizeof`, and its machine result is the exact 4184), the
addition does not carry (`4184 + proofLen < 2^64`), and the result is exactly
`4184 + proofLen`, the value in unbounded arithmetic, which is at least 4184. -/
theorem HeaderAndProof_SIZEOF_size_t_64 (p : Platform) (hp : p.Admissible)
    (proofLen : Nat) (hlen : proofLen < 2 ^ 32) :
    8 ≤ sizeof (PacketCrypt_HeaderAndProof_t p) ∧
      sizeof (PacketCrypt_HeaderAndProof_t p) < 2 ^ 64 ∧
      usub 64 (sizeof (PacketCrypt_HeaderAndProof_t p)) 8 =
        sizeof (PacketCrypt_HeaderAndProof_t p) - 8 ∧
      usub 64 (sizeof (PacketCrypt_HeaderAndProof_t p)) 8 = 4184 ∧
      sizeof (PacketCrypt_HeaderAndProof_t p) - 8 + proofLen < 2 ^ 64 ∧
      PacketCrypt_HeaderAndProof_SIZEOF_size_t 64 p proofLen = 4184 + proofLen ∧
      PacketCrypt_HeaderAndProof_SIZEOF_size_t 64 p proofLen =
        PacketCrypt_HeaderAndProof_SIZEOF p proofLen ∧
      4184 ≤ PacketCrypt_HeaderAndProof_SIZEOF_size_t 64 p proofLen := by
  have h := sizeof_HeaderAndProof p hp
  simp only [PacketCrypt_HeaderAndProof_SIZEOF_size_t, PacketCrypt_HeaderAndProof_SIZEOF,
    usub, uadd, h]
  norm_num at hlen ⊢
  omega

theorem HeaderAndProof_SIZEOF_size_t_64_witness :
    Platform.natural.Admissible ∧ 4294967295 < 2 ^ 32 ∧
      PacketCrypt_HeaderAndProof_SIZEOF_size_t 64 Platform.natural 4294967295 =
        4184 + 4294967295 :=
  ⟨Platform.natural_admissible, by decide,
    (HeaderAndProof_SIZEOF_size_t_64 Platform.natural Platform.natural_admissible
      4294967295 (by decide)).2.2.2.2.2.1⟩

/-- C15: when `size_t` is 32 bits wide, on every admissible platform and for
every 32-bit `proofLen`, the macro yields `(4184 + proofLen) mod 2^32`; it
wraps around exactly when `proofLen ≥ 2^32 - 4184`: exactly then the result
is smaller than 4184, the fixed part of the bundle, and differs from
`80 + 4 + 4 + 4*1024 + proofLen`.  Such a `proofLen` exists: for
`proofLen = 2^32 - 1` the result is 4183. -/
theorem HeaderAndProof_SIZEOF_size_t_32 (p : Platform) (hp : p.Admissible)
    (proofLen : Nat) (hlen : proofLen < 2 ^ 32) :
    PacketCrypt_HeaderAndProof_SIZEOF_size_t 32 p proofLen = (4184 + proofLen) % 2 ^ 32 ∧
      (PacketCrypt_HeaderAndProof_SIZEOF_size_t 32 p proofLen < 4184 ↔
        2 ^ 32 - 4184 ≤ proofLen) ∧
      (PacketCrypt_HeaderAndProof_SIZEOF_size_t 32 p proofLen ≠
          80 + 4 + 4 + 4 * 1024 + proofLen ↔ 2 ^ 32 - 4184 ≤ proofLen) ∧
      (PacketCrypt_HeaderAndProof_SIZEOF_size_t 32 p proofLen ≠
          PacketCrypt_HeaderAndProof_SIZEOF p proofLen ↔ 2 ^ 32 - 4184 ≤ proofLen) ∧
      (2 ^ 32 - 4184 ≤ proofLen →
        PacketCrypt_HeaderAndProof_SIZEOF_size_t 32 p proofLen =
          4184 + proofLen - 2 ^ 32) ∧
      PacketCrypt_HeaderAndProof_SIZEOF_size_t 32 p (2 ^ 32 - 1) = 4183 := by
  have h := sizeof_HeaderAndProof p hp
  simp only [PacketCrypt_HeaderAndProof_SIZEOF_size_t, PacketCrypt_HeaderAndProof_SIZEOF,
    usub, uadd, h]
  norm_num at hlen ⊢
  omega

theorem HeaderAndProof_SIZEOF_size_t_32_witness :
    Platform.ia32.Admissible ∧ 4294963112 < 2 ^ 32 ∧
      PacketCrypt_HeaderAndProof_SIZEOF_size_t 32 Platform.ia32 4294963112 = 0 ∧
      PacketCrypt_HeaderAndProof_SIZEOF_size_t 32 Platform.ia32 4294963112 < 4184 :=
  ⟨⟨⟨⟨0, rfl⟩, by decide⟩, ⟨⟨2, rfl⟩, by decide⟩, ⟨⟨2, rfl⟩, by decide⟩⟩, by decide,
    (HeaderAndProof_SIZEOF_size_t_32 Platform.ia32
      ⟨⟨⟨0, rfl⟩, by decide⟩, ⟨⟨2, rfl⟩, by decide⟩, ⟨⟨2, rfl⟩, by decide⟩⟩
      4294963112 (by decide)).1,
    (HeaderAndProof_SIZEOF_size_t_32 Platform.ia32
      ⟨⟨⟨0, rfl⟩, by decide⟩, ⟨⟨2, rfl⟩, by decide⟩, ⟨⟨2, rfl⟩, by decide⟩⟩
      4294963112 (by decide)).2.1.mpr (by decide)⟩

/-! ## Encoding and decoding -/

theorem length_putUInt : ∀ (width v : Nat), (putUInt width v).length = width
  | 0, _ => rfl
  | width + 1, v => by simp [putUInt, length_putUInt width]

theorem length_putWords (width : Nat) :
    ∀ (count : Nat) (ws : List Nat), (putWords width count ws).length = width * count
  | 0, _ => rfl
  | count + 1, ws => by
    simp [putWords, length_putUInt, length_putWords width count, Nat.mul_succ, Nat.add_comm]

theorem length_putBytes (n : Nat) (bs : List Byte) : (putBytes n bs).length = n := by
  simp [putBytes]

theorem putBytes_of_length {n : Nat} {bs : List Byte} (h : bs.length = n) :
    putBytes n bs = bs := by
  rw [putBytes, List.take_append_of_le_length (by omega), List.take_of_length_le (by omega)]

theorem leValue_putUInt : ∀ (width v : Nat), leValue (putUInt width v) = v % 256 ^ width
  | 0, v => by simp [putUInt, leValue, Nat.mod_one]
  | width + 1, v => by
    simp only [putUInt, leValue, leValue_putUInt width]
    rw [pow_succ, Nat.mul_comm (256 ^ width) 256, Nat.mod_mul]

theorem leValue_putUInt_of_lt {width v : Nat} (h : v < 256 ^ width) :
    leValue (putUInt width v) = v := by
  rw [leValue_putUInt, Nat.mod_eq_of_lt h]

theorem readBytes_mid (a x b : List Byte) {off n : Nat} (hoff : a.length = off)
    (hn : x.length = n) : readBytes (a ++ (x ++ b)) off n = .ok x := by
  subst hoff hn
  rw [readBytes_ok (by simp)]
  simp

theorem readUInt_mid (a x b : List Byte) {off n : Nat} (hoff : a.length = off)
    (hn : x.length = n) : readUInt (a ++ (x ++ b)) off n = .ok (leValue x) := by
  simp [readUInt, readBytes_mid a x b hoff hn]

theorem readWords_putWords (width : Nat) :
    ∀ (count : Nat) (ws : List Nat) (a b : List Byte) (off : Nat),
      a.length = off → ws.length = count → (∀ w ∈ ws, w < 256 ^ width) →
      readWords (a ++ (putWords width count ws ++ b)) off width count = .ok ws
  | 0, ws, _, _, _, _, hws, _ => by
    rw [List.length_eq_zero.mp hws]
    rfl
  | count + 1, [], _, _, _, _, hws, _ => by simp at hws
  | count + 1, w :: ws, a, b, off, hoff, hws, hlt => by
    have hw : w < 256 ^ width := hlt w (by simp)
    have h1 : readUInt (a ++ (putWords width (count + 1) (w :: ws) ++ b)) off width =
        .ok w := by
      have := readUInt_mid a (putUInt width w) (putWords width count ws ++ b) hoff
        (length_putUInt width w)
      rw [leValue_putUInt_of_lt hw] at this
      simpa [putWords] using this
    have h2 : readWords (a ++ (putWords width (count + 1) (w :: ws) ++ b)) (off + width)
        width count = .ok ws := by
      have := readWords_putWords width count ws (a ++ putUInt width w) b (off + width)
        (by simp [length_putUInt, hoff]) (by simpa using hws)
        (fun v hv => hlt v (by simp [hv]))
      simpa [putWords] using this
    simp [readWords, h1, h2]

theorem length_encodeBlockHeader (r : BlockHeader) : (encodeBlockHeader r).length = 80 := by
  simp [encodeBlockHeader, length_putUInt, length_putWords]

theorem length_encodeAnnounceHeader (r : AnnounceHeader) :
    (encodeAnnounceHeader r).length = 88 := by
  simp [encodeAnnounceHeader, length_putUInt, length_putBytes]

theorem length_encodeAnnouncement (r : Announcement) :
    (encodeAnnouncement r).length = 1024 := by
  simp [encodeAnnouncement, length_encodeAnnounceHeader, length_putBytes]

theorem length_encodeCoinbaseCommitment (r : CoinbaseCommitment) :
    (encodeCoinbaseCommitment r).length = 48 := by
  simp [encodeCoinbaseCommitment, length_putUInt, length_putBytes]

theorem decode_encodeBlockHeader (r : BlockHeader) (hv : r.Valid) :
    decodeBlockHeader (encodeBlockHeader r) = .ok r := by
  obtain ⟨h1, ⟨h2l, h2⟩, ⟨h3l, h3⟩, h4, h5, h6⟩ := hv
  have e1 : readUInt (encodeBlockHeader r) 0 4 = .ok r.version := by
    have := readUInt_mid [] (putUInt 4 r.version) (putWords 4 8 r.hashPrevBlock ++
      (putWords 4 8 r.hashMerkleRoot ++ (putUInt 4 r.timeSeconds ++
        (putUInt 4 r.workBits ++ putUInt 4 r.nonce)))) rfl (length_putUInt 4 _)
    rw [leValue_putUInt_of_lt (by norm_num; omega)] at this
    simpa [encodeBlockHeader] using this
  have e2 : readWords (encodeBlockHeader r) 4 4 8 = .ok r.hashPrevBlock := by
    have := readWords_putWords 4 8 r.hashPrevBlock (putUInt 4 r.version)
      (putWords 4 8 r.hashMerkleRoot ++ (putUInt 4 r.timeSeconds ++
        (putUInt 4 r.workBits ++ putUInt 4 r.nonce))) 4 (length_putUInt 4 _) h2l
      (fun w hw => by have := h2 w hw; norm_num; omega)
    simpa [encodeBlockHeader] using this
  have e3 : readWords (encodeBlockHeader r) 36 4 8 = .ok r.hashMerkleRoot := by
    have := readWords_putWords 4 8 r.hashMerkleRoot
      (putUInt 4 r.version ++ putWords 4 8 r.hashPrevBlock)
      (putUInt 4 r.timeSeconds ++ (putUInt 4 r.workBits ++ putUInt 4 r.nonce)) 36
      (by simp [length_putUInt, length_putWords]) h3l
      (fun w hw => by have := h3 w hw; norm_num; omega)
    simpa [encodeBlockHeader] using this
  have e4 : readUInt (encodeBlockHeader r) 68 4 = .ok r.timeSeconds := by
    have := readUInt_mid
      (putUInt 4 r.version ++ (putWords 4 8 r.hashPrevBlock ++ putWords 4 8 r.hashMerkleRoot))
      (putUInt 4 r.timeSeconds) (putUInt 4 r.workBits ++ putUInt 4 r.nonce)
      (by simp [length_putUInt, length_putWords] : _ = 68) (length_putUInt 4 _)
    rw [leValue_putUInt_of_lt (by norm_num; omega)] at this
    simpa [encodeBlockHeader] using this
  have e5 : readUInt (encodeBlockHeader r) 72 4 = .ok r.workBits := by
    have := readUInt_mid
      (putUInt 4 r.version ++ (putWords 4 8 r.hashPrevBlock ++
        (putWords 4 8 r.hashMerkleRoot ++ putUInt 4 r.timeSeconds)))
      (putUInt 4 r.workBits) (putUInt 4 r.nonce)
      (by simp [length_putUInt, length_putWords] : _ = 72) (length_putUInt 4 _)
    rw [leValue_putUInt_of_lt (by norm_num; omega)] at this
    simpa [encodeBlockHeader] using this
  have e6 : readUInt (encodeBlockHeader r) 76 4 = .ok r.nonce := by
    have := readUInt_mid
      (putUInt 4 r.version ++ (putWords 4 8 r.hashPrevBlock ++
        (putWords 4 8 r.hashMerkleRoot ++ (putUInt 4 r.timeSeconds ++ putUInt 4 r.workBits))))
      (putUInt 4 r.nonce) []
      (by simp [length_putUInt, length_putWords] : _ = 76) (length_putUInt 4 _)
    rw [leValue_putUInt_of_lt (by norm_num; omega)] at this
    simpa [encodeBlockHeader] using this
  simp only [decodeBlockHeader, length_encodeBlockHeader, e1, e2, e3, e4, e5, e6, bind,
    Except.bind, pure, Except.pure]
  simp

theorem decode_encodeAnnounceHeader (r : AnnounceHeader) (hv : r.Valid) :
    decodeAnnounceHeader (encodeAnnounceHeader r) = .ok r := by
  obtain ⟨h1, h2, h3, h4, h5, h6, h7, h8⟩ := hv
  have e1 : readUInt (encodeAnnounceHeader r) 0 1 = .ok r.version := by
    have := readUInt_mid [] (putUInt 1 r.version) (putUInt 3 r.softNonce ++
      (putUInt 4 r.hardNonce ++ (putUInt 4 r.workBits ++ (putUInt 4 r.parentBlockHeight ++
        (putUInt 8 r.contentType ++ (putBytes 32 r.contentHash ++
          putBytes 32 r.signingKey)))))) rfl (length_putUInt 1 _)
    rw [leValue_putUInt_of_lt (by norm_num; omega)] at this
    simpa [encodeAnnounceHeader] using this
  have e2 : readUInt (encodeAnnounceHeader r) 1 3 = .ok r.softNonce := by
    have := readUInt_mid (putUInt 1 r.version) (putUInt 3 r.softNonce)
      (putUInt 4 r.hardNonce ++ (putUInt 4 r.workBits ++ (putUInt 4 r.parentBlockHeight ++
        (putUInt 8 r.contentType ++ (putBytes 32 r.contentHash ++
          putBytes 32 r.signingKey)))))
      (by simp [length_putUInt] : _ = 1) (length_putUInt 3 _)
    rw [leValue_putUInt_of_lt (by norm_num; omega)] at this
    simpa [encodeAnnounceHeader] using this
  have e3 : readUInt (encodeAnnounceHeader r) 4 4 = .ok r.hardNonce := by
    have := readUInt_mid (putUInt 1 r.version ++ putUInt 3 r.softNonce)
      (putUInt 4 r.hardNonce)
      (putUInt 4 r.workBits ++ (putUInt 4 r.parentBlockHeight ++
        (putUInt 8 r.contentType ++ (putBytes 32 r.contentHash ++
          putBytes 32 r.signingKey))))
      (by simp [length_putUInt] : _ = 4) (length_putUInt 4 _)
    rw [leValue_putUInt_of_lt (by norm_num; omega)] at this
    simpa [encodeAnnounceHeader] using this
  have e4 : readUInt (encodeAnnounceHeader r) 8 4 = .ok r.workBits := by
    have := readUInt_mid
      (putUInt 1 r.version ++ (putUInt 3 r.softNonce ++ putUInt 4 r.hardNonce))
      (putUInt 4 r.workBits)
      (putUInt 4 r.parentBlockHeight ++
        (putUInt 8 r.contentType ++ (putBytes 32 r.contentHash ++
          putBytes 32 r.signingKey)))
      (by simp [length_putUInt] : _ = 8) (length_putUInt 4 _)
    rw [leValue_putUInt_of_lt (by norm_num; omega)] at this
    simpa [encodeAnnounceHeader] using this
  have e5 : readUInt (encodeAnnounceHeader r) 12 4 = .ok r.parentBlockHeight := by
    have := readUInt_mid
      (putUInt 1 r.version ++ (putUInt 3 r.softNonce ++ (putUInt 4 r.hardNonce ++
        putUInt 4 r.workBits)))
      (putUInt 4 r.parentBlockHeight)
      (putUInt 8 r.contentType ++ (putBytes 32 r.contentHash ++ putBytes 32 r.signingKey))
      (by simp [length_putUInt] : _ = 12) (length_putUInt 4 _)
    rw [leValue_putUInt_of_lt (by norm_num; omega)] at this
    simpa [encodeAnnounceHeader] using this
  have e6 : readUInt (encodeAnnounceHeader r) 16 8 = .ok r.contentType := by
    have := readUInt_mid
      (putUInt 1 r.version ++ (putUInt 3 r.softNonce ++ (putUInt 4 r.hardNonce ++
        (putUInt 4 r.workBits ++ putUInt 4 r.parentBlockHeight))))
      (putUInt 8 r.contentType)
      (putBytes 32 r.contentHash ++ putBytes 32 r.signingKey)
      (by simp [length_putUInt] : _ = 16) (length_putUInt 8 _)
    rw [leValue_putUInt_of_lt (by norm_num; omega)] at this
    simpa [encodeAnnounceHeader] using this
  have e7 : readBytes (encodeAnnounceHeader r) 24 32 = .ok r.contentHash := by
    have := readBytes_mid
      (putUInt 1 r.version ++ (putUInt 3 r.softNonce ++ (putUInt 4 r.hardNonce ++
        (putUInt 4 r.workBits ++ (putUInt 4 r.parentBlockHeight ++
          putUInt 8 r.contentType)))))
      (putBytes 32 r.contentHash) (putBytes 32 r.signingKey)
      (by simp [length_putUInt] : _ = 24) (length_putBytes 32 _)
    rw [putBytes_of_length h7] at this
    simpa [encodeAnnounceHeader, putBytes_of_length h7] using this
  have e8 : readBytes (encodeAnnounceHeader r) 56 32 = .ok r.signingKey := by
    have := readBytes_mid
      (putUInt 1 r.version ++ (putUInt 3 r.softNonce ++ (putUInt 4 r.hardNonce ++
        (putUInt 4 r.workBits ++ (putUInt 4 r.parentBlockHeight ++
          (putUInt 8 r.contentType ++ putBytes 32 r.contentHash))))))
      (putBytes 32 r.signingKey) []
      (by simp [length_putUInt, length_putBytes] : _ = 56) (length_putBytes 32 _)
    rw [putBytes_of_length h8] at this
    simpa [encodeAnnounceHeader, putBytes_of_length h8] using this
  simp only [decodeAnnounceHeader, length_encodeAnnounceHeader, e1, e2, e3, e4, e5, e6, e7,
    e8, bind, Except.bind, pure, Except.pure]
  simp

theorem decode_encodeAnnouncement (r : Announcement) (hv : r.Valid) :
    decodeAnnouncement (encodeAnnouncement r) = .ok r := by
  obtain ⟨hh, hp⟩ := hv
  have e1 : readBytes (encodeAnnouncement r) 0 88 = .ok (encodeAnnounceHeader r.hdr) := by
    have := readBytes_mid [] (encodeAnnounceHeader r.hdr) (putBytes 936 r.proof) rfl
      (length_encodeAnnounceHeader _)
    simpa [encodeAnnouncement] using this
  have e2 : readBytes (encodeAnnouncement r) 88 936 = .ok r.proof := by
    have := readBytes_mid (encodeAnnounceHeader r.hdr) (putBytes 936 r.proof) []
      (length_encodeAnnounceHeader _) (length_putBytes 936 _)
    rw [putBytes_of_length hp] at this
    simpa [encodeAnnouncement, putBytes_of_length hp] using this
  simp only [decodeAnnouncement, length_encodeAnnouncement, e1, e2,
    decode_encodeAnnounceHeader r.hdr hh, bind, Except.bind, pure, Except.pure]
  simp

theorem decode_encodeCoinbaseCommitment (r : CoinbaseCommitment) (hv : r.Valid) :
    decodeCoinbaseCommitment (encodeCoinbaseCommitment r) = .ok r := by
  obtain ⟨h1, h2, h3, h4⟩ := hv
  have hm : r.magic < 256 ^ 4 := by
    rw [h1]
    decide
  have e1 : readUInt (encodeCoinbaseCommitment r) 0 4 = .ok r.magic := by
    have := readUInt_mid [] (putUInt 4 r.magic) (putUInt 4 r.annLeastWorkTarget ++
      (putBytes 32 r.merkleRoot ++ putUInt 8 r.numAnns)) rfl (length_putUInt 4 _)
    rw [leValue_putUInt_of_lt hm] at this
    simpa [encodeCoinbaseCommitment] using this
  have e2 : readUInt (encodeCoinbaseCommitment r) 4 4 = .ok r.annLeastWorkTarget := by
    have := readUInt_mid (putUInt 4 r.magic) (putUInt 4 r.annLeastWorkTarget)
      (putBytes 32 r.merkleRoot ++ putUInt 8 r.numAnns)
      (length_putUInt 4 _) (length_putUInt 4 _)
    rw [leValue_putUInt_of_lt (by norm_num; omega)] at this
    simpa [encodeCoinbaseCommitment] using this
  have e3 : readBytes (encodeCoinbaseCommitment r) 8 32 = .ok r.merkleRoot := by
    have := readBytes_mid (putUInt 4 r.magic ++ putUInt 4 r.annLeastWorkTarget)
      (putBytes 32 r.merkleRoot) (putUInt 8 r.numAnns)
      (by simp [length_putUInt] : _ = 8) (length_putBytes 32 _)
    rw [putBytes_of_length h3] at this
    simpa [encodeCoinbaseCommitment, putBytes_of_length h3] using this
  have e4 : readUInt (encodeCoinbaseCommitment r) 40 8 = .ok r.numAnns := by
    have := readUInt_mid
      (putUInt 4 r.magic ++ (putUInt 4 r.annLeastWorkTarget ++ putBytes 32 r.merkleRoot))
      (putUInt 8 r.numAnns) []
      (by simp [length_putUInt, length_putBytes] : _ = 40) (length_putUInt 8 _)
    rw [leValue_putUInt_of_lt (by norm_num; omega)] at this
    simpa [encodeCoinbaseCommitment] using this
  simp only [decodeCoinbaseCommitment, length_encodeCoinbaseCommitment, e1, e2, e3, e4, bind,
    Except.bind, pure, Except.pure]
  simp only [h1, ne_eq, not_true_eq_false, if_false]
  rw [← h1]

theorem sampleBlockHeader_valid : sampleBlockHeader.Valid := by
  unfold BlockHeader.Valid sampleBlockHeader
  decide

theorem sampleAnnounceHeader_valid : sampleAnnounceHeader.Valid := by
  unfold AnnounceHeader.Valid sampleAnnounceHeader
  decide

theorem sampleAnnouncement_valid : sampleAnnouncement.Valid :=
  ⟨sampleAnnounceHeader_valid,
    show (List.replicate 936 (0x5A : Byte)).length = 936 from List.length_replicate _ _⟩

theorem sampleCoinbaseCommitment_valid : sampleCoinbaseCommitment.Valid := by
  unfold CoinbaseCommitment.Valid sampleCoinbaseCommitment
  decide

theorem encode_truncates_an_invalid_version :
    decodeBlockHeader (encodeBlockHeader { sampleBlockHeader with version := 2 ^ 32 + 1 }) =
      .ok sampleBlockHeader := by
  rfl

theorem wrong_magic_does_not_round_trip :
    decodeCoinbaseCommitment (encodeCoinbaseCommitment { sampleCoinbaseCommitment with magic := 0 }) =
      .error .BadMagic := by
  rfl

/-- C11: for every valid record `r` of each fixed-size kind (BlockHeader,
AnnounceHeader, Announcement, CoinbaseCommitment), `encode r` has exactly the
fixed size of the kind (80, 88, 1024, 48 bytes) and `decode (encode r)` succeeds
with `r`. -/
theorem decode_encode :
    (∀ r : BlockHeader, r.Valid →
        (encodeBlockHeader r).length = 80 ∧
          decodeBlockHeader (encodeBlockHeader r) = .ok r) ∧
      (∀ r : AnnounceHeader, r.Valid →
        (encodeAnnounceHeader r).length = 88 ∧
          decodeAnnounceHeader (encodeAnnounceHeader r) = .ok r) ∧
      (∀ r : Announcement, r.Valid →
        (encodeAnnouncement r).length = 1024 ∧
          decodeAnnouncement (encodeAnnouncement r) = .ok r) ∧
      (∀ r : CoinbaseCommitment, r.Valid →
        (encodeCoinbaseCommitment r).length = 48 ∧
          decodeCoinbaseCommitment (encodeCoinbaseCommitment r) = .ok r) :=
  ⟨fun r hv => ⟨length_encodeBlockHeader r, decode_encodeBlockHeader r hv⟩,
    fun r hv => ⟨length_encodeAnnounceHeader r, decode_encodeAnnounceHeader r hv⟩,
    fun r hv => ⟨length_encodeAnnouncement r, decode_encodeAnnouncement r hv⟩,
    fun r hv => ⟨length_encodeCoinbaseCommitment r, decode_encodeCoinbaseCommitment r hv⟩⟩

theorem decode_encode_witness :
    (sampleBlockHeader.Valid ∧
        decodeBlockHeader (encodeBlockHeader sampleBlockHeader) = .ok sampleBlockHeader) ∧
      (sampleAnnounceHeader.Valid ∧
        decodeAnnounceHeader (encodeAnnounceHeader sampleAnnounceHeader) =
          .ok sampleAnnounceHeader) ∧
      (sampleAnnouncement.Valid ∧
        decodeAnnouncement (encodeAnnouncement sampleAnnouncement) =
          .ok sampleAnnouncement) ∧
      (sampleCoinbaseCommitment.Valid ∧
        decodeCoinbaseCommitment (encodeCoinbaseCommitment sampleCoinbaseCommitment) =
          .ok sampleCoinbaseCommitment) :=
  ⟨⟨sampleBlockHeader_valid,
      (decode_encode.1 sampleBlockHeader sampleBlockHeader_valid).2⟩,
    ⟨sampleAnnounceHeader_valid,
      (decode_encode.2.1 sampleAnnounceHeader sampleAnnounceHeader_valid).2⟩,
    ⟨sampleAnnouncement_valid,
      (decode_encode.2.2.1 sampleAnnouncement sampleAnnouncement_valid).2⟩,
    ⟨sampleCoinbaseCommitment_valid,
      (decode_encode.2.2.2 sampleCoinbaseCommitment sampleCoinbaseCommitment_valid).2⟩⟩

/-- C12: the encoding of a BlockHeader is little-endian, in the field order of
the bitcoin block header: for every header with `version = 1` and
`nonce = 0xDEADBEEF` the encoding has 80 bytes, its bytes 0..3 are
`01 00 00 00` and its bytes 76..79 are `EF BE AD DE`. -/
theorem encodeBlockHeader_bytes (r : BlockHeader) (hversion : r.version = 1)
    (hnonce : r.nonce = 0xDEADBEEF) :
    (encodeBlockHeader r).length = 80 ∧
      (encodeBlockHeader r).take 4 = [0x01, 0x00, 0x00, 0x00] ∧
      ((encodeBlockHeader r).drop 76).take 4 = [0xEF, 0xBE, 0xAD, 0xDE] ∧
      (encodeBlockHeader r).drop 76 = [0xEF, 0xBE, 0xAD, 0xDE] ∧
      readBytes (encodeBlockHeader r) 0 4 = .ok [0x01, 0x00, 0x00, 0x00] ∧
      readBytes (encodeBlockHeader r) 76 4 = .ok [0xEF, 0xBE, 0xAD, 0xDE] := by
  have hlen := length_encodeBlockHeader r
  have hv : putUInt 4 r.version = [0x01, 0x00, 0x00, 0x00] := by
    rw [hversion]
    decide
  have hn : putUInt 4 r.nonce = [0xEF, 0xBE, 0xAD, 0xDE] := by
    rw [hnonce]
    decide
  have h0 : (encodeBlockHeader r).take 4 = [0x01, 0x00, 0x00, 0x00] := by
    rw [encodeBlockHeader, List.take_left' (length_putUInt 4 _), hv]
  have h76 : (encodeBlockHeader r).drop 76 = [0xEF, 0xBE, 0xAD, 0xDE] := by
    have e : encodeBlockHeader r =
        (putUInt 4 r.version ++ (putWords 4 8 r.hashPrevBlock ++
          (putWords 4 8 r.hashMerkleRoot ++ (putUInt 4 r.timeSeconds ++
            putUInt 4 r.workBits)))) ++ putUInt 4 r.nonce := by
      simp [encodeBlockHeader]
    rw [e, List.drop_left' (by simp [length_putUInt, length_putWords]), hn]
  refine ⟨hlen, h0, by rw [h76]; rfl, h76, ?_, ?_⟩
  · rw [readBytes_ok (by omega), List.drop_zero, h0]
  · rw [readBytes_ok (by omega), h76]
    rfl

theorem encodeBlockHeader_bytes_witness :
    sampleBlockHeader.version = 1 ∧ sampleBlockHeader.nonce = 0xDEADBEEF ∧
      (encodeBlockHeader sampleBlockHeader).take 4 = [0x01, 0x00, 0x00, 0x00] ∧
      (encodeBlockHeader sampleBlockHeader).drop 76 = [0xEF, 0xBE, 0xAD, 0xDE] :=
  ⟨rfl, rfl, (encodeBlockHeader_bytes sampleBlockHeader rfl rfl).2.1,
    (encodeBlockHeader_bytes sampleBlockHeader rfl rfl).2.2.2.1⟩

end PacketCrypt
